import Mathlib

/-!
Shallow embedding of the SummerSnake/blockchain repository (Rust sources under
src/): block mining with proof-of-work (src/block.rs), the chain store
(src/blockchain.rs), the transaction model with per-input trimmed-copy
signing (src/transaction.rs), the UTXO materialised view (src/utxo_set.rs)
and the gossip server's message handling (src/server.rs).

Conventions of the embedding:
* Byte buffers (`Vec<u8>`) are `List Nat`; Rust `i32` values are `Int`;
  `u128` timestamps are `Nat`; hex digests are `String`.
* External crates (SHA-256 / RIPEMD-160 from rust-crypto, ed25519, bincode
  serialisation, the base58 address codec of bitcoincash_addr) are external
  collaborators; they are abstracted as the parameter bundle `Deps` passed to
  every definition that calls them.  The repository's own logic stays fully
  concrete.
* Rust panics (`unwrap` on `None`, out-of-bounds slice indexing) are
  modelled as `Option.none` at the outermost layer of the affected
  operation; `Result<T, failure::Error>` returns are modelled by
  `Except Err`.
* Unbounded loops (the proof-of-work nonce search, walking the chain by
  prev-hash links) take explicit fuel and return `Option`/truncated lists.
-/

/-- Errors returned through `Result<T, failure::Error>` in the sources.
The constructors name the error taxonomy of the repository (the
`format_err!` sites). -/
inductive Err where
  | invalidTransaction : Err
  | prevTxIncorrect : Err
  | insufficientFunds (balance : Int) : Err
  | notFound : Err
  | formatError : Err
  | unknownCommand : Err
deriving DecidableEq, Repr

/-- src/transaction.rs `struct TXInput`. -/
structure TXInput where
  txid : String
  vout : Int
  signature : List Nat
  pub_key : List Nat
deriving DecidableEq, Repr

/-- src/transaction.rs `struct TXOutput`. -/
structure TXOutput where
  value : Int
  pub_key_hash : List Nat
deriving DecidableEq, Repr

/-- src/transaction.rs `struct TXOutputs`. -/
structure TXOutputs where
  outputs : List TXOutput
deriving DecidableEq, Repr

/-- src/transaction.rs `struct Transaction`. -/
structure Transaction where
  id : String
  vin : List TXInput
  vout : List TXOutput
deriving DecidableEq, Repr

/-- src/block.rs `struct Block`. -/
structure Block where
  timestamp : Nat
  transactions : List Transaction
  prev_block_hash : String
  hash : String
  nonce : Int
  height : Int
deriving DecidableEq, Repr

/-- The bytes of a string, as `str::as_bytes` views them (we use code
points; only injectivity-free structural facts are proved about them). -/
def strBytes (s : String) : List Nat :=
  s.data.map Char.toNat

/-- External collaborators used by the repository: the crypto crates, the
bincode serialiser (applied to each concrete record shape the sources
serialise), the merkle_cbt tree builder and the address codec.  All
theorems are parametric in this bundle. -/
structure Deps where
  /-- `crypto::sha2::Sha256` digest rendered as `result_str()`, a hex
  string, of an input byte buffer. -/
  sha256hex : List Nat → String
  /-- `bincode::serialize` of a `Transaction` record. -/
  serTransaction : Transaction → List Nat
  /-- `bincode::serialize` of the tuple
  `(prev_block_hash, merkle_root, timestamp, TARGET_HEXS, nonce)`
  built by `Block::prepare_hash_data`. -/
  serPreimage : String → List Nat → Nat → Nat → Int → List Nat
  /-- `merkle_cbt` complete-binary-merkle-tree root over the leaf list. -/
  merkleRoot : List (List Nat) → List Nat
  /-- `crypto::ed25519::signature(message, private_key)`. -/
  ed25519Signature : List Nat → List Nat → List Nat
  /-- `crypto::ed25519::verify(message, public_key, signature)`. -/
  ed25519Verify : List Nat → List Nat → List Nat → Bool
  /-- `bitcoincash_addr::Address::decode(address).body`. -/
  decodeAddress : String → List Nat
  /-- `Address::encode` of the record built from a public-key hash
  (used by `Wallet::get_address`). -/
  encodeAddress : List Nat → String
  /-- `hash_pub_key` from src/wallets.rs: RIPEMD-160 of SHA-256 of the
  public key, resized to 20 bytes. -/
  hashPubKey : List Nat → List Nat

/-- src/transaction.rs: `const SUBSIDY: i32 = 10`. -/
def SUBSIDY : Int := 10

/-- src/block.rs: `const TARGET_HEXS: usize = 4`. -/
def TARGET_HEXS : Nat := 4

/-- src/server.rs: `const CMD_LEN: usize = 12`. -/
def CMD_LEN : Nat := 12

/-- `Transaction::hash`: clone, clear `id`, bincode-serialise, SHA-256. -/
def Transaction.hash (E : Deps) (tx : Transaction) : String :=
  E.sha256hex (E.serTransaction { tx with id := "" })

/-- `Transaction::is_coinbase`. -/
def Transaction.is_coinbase (tx : Transaction) : Bool :=
  tx.vin.length == 1 && (tx.vin.head?.elim false fun v => v.txid == "" && v.vout == -1)

/-- `TXOutput::new(value, address)`: builds the output and locks it to the
decoded address body (`TXOutput::lock`). -/
def TXOutput.new (E : Deps) (value : Int) (address : String) : TXOutput :=
  { value := value, pub_key_hash := E.decodeAddress address }

/-- `Transaction::trim_copy`: same txids/vouts/outputs/id, signatures and
pub_keys emptied. -/
def Transaction.trim_copy (tx : Transaction) : Transaction :=
  { id := tx.id
    vin := tx.vin.map fun v => { txid := v.txid, vout := v.vout, signature := [], pub_key := [] }
    vout := tx.vout.map fun v => { value := v.value, pub_key_hash := v.pub_key_hash } }

/-- ASCII single-quote character, used by the coinbase reward label. -/
def squote : String := (Char.ofNat 39).toString

/-- `Transaction::new_coinbase(to, data)`.  `randKey` stands for the 32
`OsRng` bytes drawn when `data` is empty; when `data` is non-empty the
Rust buffer stays all-zero and is still appended. -/
def Transaction.new_coinbase (E : Deps) (randKey : List Nat) (toAddr data : String) : Transaction :=
  let key : List Nat := if data.isEmpty then randKey else List.replicate 32 0
  let data' : String := if data.isEmpty then "Reward to " ++ squote ++ toAddr ++ squote else data
  let pub_key : List Nat := strBytes data' ++ key
  let tx : Transaction :=
    { id := ""
      vin := [{ txid := "", vout := -1, signature := [], pub_key := pub_key }]
      vout := [TXOutput.new E SUBSIDY toAddr] }
  { tx with id := tx.hash E }

/-- The shared guard loop at the top of `Transaction::sign` and
`Transaction::verify`: for each input, `prev_txs.get(..).unwrap()`
(panic when absent, modelled `none`) must have a non-empty `id`,
otherwise `ERROR: Previous transaction is not correct.` is returned. -/
def checkPrevTxs (prevTxs : String → Option Transaction) : List TXInput → Option (Except Err Unit)
  | [] => some (.ok ())
  | v :: rest =>
    match prevTxs v.txid with
    | none => none
    | some p => if p.id = "" then some (.error .prevTxIncorrect) else checkPrevTxs prevTxs rest

/-- The per-input loop of `Transaction::verify`: thread the trimmed copy,
per index clear the copy input's signature, put the referenced output's
`pub_key_hash` into its `pub_key`, rehash the copy into its `id`, reset
the `pub_key`, then `ed25519::verify` the copy's id against the original
input's `pub_key` and `signature`.  Indexing `prev_tx.vout[vout as usize]`
with a negative or out-of-range `vout` panics (`none`). -/
def Transaction.verifyLoop (E : Deps) (prevTxs : String → Option Transaction) (self : Transaction) :
    List Nat → Transaction → Option (Except Err Bool)
  | [], _ => some (.ok true)
  | in_id :: rest, tx_copy =>
    match self.vin[in_id]?, tx_copy.vin[in_id]? with
    | some sv, some cv =>
      match prevTxs sv.txid with
      | none => none
      | some prev =>
        if sv.vout < 0 then none
        else
          match prev.vout[sv.vout.toNat]? with
          | none => none
          | some out =>
            let copy1 : Transaction :=
              { tx_copy with
                vin := tx_copy.vin.set in_id { cv with signature := [], pub_key := out.pub_key_hash } }
            let msg : String := copy1.hash E
            let copy2 : Transaction :=
              { copy1 with
                id := msg
                vin := copy1.vin.set in_id { cv with signature := [], pub_key := [] } }
            if E.ed25519Verify (strBytes msg) sv.pub_key sv.signature then
              Transaction.verifyLoop E prevTxs self rest copy2
            else some (.ok false)
    | _, _ => none

/-- `Transaction::verify(prev_txs)`. -/
def Transaction.verify (E : Deps) (tx : Transaction) (prevTxs : String → Option Transaction) :
    Option (Except Err Bool) :=
  if tx.is_coinbase then some (.ok true)
  else
    match checkPrevTxs prevTxs tx.vin with
    | none => none
    | some (.error e) => some (.error e)
    | some (.ok ()) => Transaction.verifyLoop E prevTxs tx (List.range tx.vin.length) tx.trim_copy

/-- The per-input loop of `Transaction::sign`: same trimmed-copy walk as
`verifyLoop` (the loop reads the txid/vout from the copy), and it writes
`ed25519::signature(copy.id, private_key)` into the original transaction's
input. -/
def Transaction.signLoop (E : Deps) (private_key : List Nat) (prevTxs : String → Option Transaction) :
    List Nat → Transaction → Transaction → Option Transaction
  | [], _, self => some self
  | in_id :: rest, tx_copy, self =>
    match tx_copy.vin[in_id]?, self.vin[in_id]? with
    | some cv, some sv =>
      match prevTxs cv.txid with
      | none => none
      | some prev =>
        if cv.vout < 0 then none
        else
          match prev.vout[cv.vout.toNat]? with
          | none => none
          | some out =>
            let copy1 : Transaction :=
              { tx_copy with
                vin := tx_copy.vin.set in_id { cv with signature := [], pub_key := out.pub_key_hash } }
            let msg : String := copy1.hash E
            let copy2 : Transaction :=
              { copy1 with
                id := msg
                vin := copy1.vin.set in_id { cv with signature := [], pub_key := [] } }
            let self' : Transaction :=
              { self with
                vin := self.vin.set in_id
                  { sv with signature := E.ed25519Signature (strBytes msg) private_key } }
            Transaction.signLoop E private_key prevTxs rest copy2 self'
    | _, _ => none

/-- `Transaction::sign(private_key, prev_txs)`: returns the transaction
with the signatures written in (the Rust method mutates `self`). -/
def Transaction.sign (E : Deps) (tx : Transaction) (private_key : List Nat)
    (prevTxs : String → Option Transaction) : Option (Except Err Transaction) :=
  if tx.is_coinbase then some (.ok tx)
  else
    match checkPrevTxs prevTxs tx.vin with
    | none => none
    | some (.error e) => some (.error e)
    | some (.ok ()) =>
      let tx_copy := tx.trim_copy
      (Transaction.signLoop E private_key prevTxs (List.range tx_copy.vin.length) tx_copy tx).map .ok

/-- `Block::hash_transactions`: merkle root over the byte strings of the
transaction hashes. -/
def Block.hash_transactions (E : Deps) (b : Block) : List Nat :=
  E.merkleRoot (b.transactions.map fun tx => strBytes (tx.hash E))

/-- `Block::prepare_hash_data`: bincode of the tuple
`(prev_block_hash, hash_transactions(), timestamp, TARGET_HEXS, nonce)`. -/
def Block.prepare_hash_data (E : Deps) (b : Block) : List Nat :=
  E.serPreimage b.prev_block_hash (b.hash_transactions E) b.timestamp TARGET_HEXS b.nonce

/-- `Block::validate`: the first `TARGET_HEXS` characters of the SHA-256
hex digest of `prepare_hash_data` are all '0'. -/
def Block.validate (E : Deps) (b : Block) : Bool :=
  (E.sha256hex (b.prepare_hash_data E)).take TARGET_HEXS
    == String.mk (List.replicate TARGET_HEXS (Char.ofNat 48))

/-- `Block::run_proof_of_work`, with explicit fuel for the unbounded nonce
search: increment `nonce` until `validate` holds, then store the full
digest of `prepare_hash_data` into `hash`. -/
def Block.run_proof_of_work (E : Deps) : Nat → Block → Option Block
  | 0, _ => none
  | fuel + 1, b =>
    if b.validate E then some { b with hash := E.sha256hex (b.prepare_hash_data E) }
    else Block.run_proof_of_work E fuel { b with nonce := b.nonce + 1 }

/-- `Block::new(transactions, prev_block_hash, height)`: timestamp comes
from the wall clock (a parameter here), `hash` starts empty, `nonce` at 0,
then the proof-of-work loop runs. -/
def Block.new (E : Deps) (fuel : Nat) (timestamp : Nat) (transactions : List Transaction)
    (prev_block_hash : String) (height : Int) : Option Block :=
  Block.run_proof_of_work E fuel
    { timestamp := timestamp, transactions := transactions,
      prev_block_hash := prev_block_hash, hash := "", nonce := 0, height := height }

/-- The persistent chain store (src/blockchain.rs `struct Blockchain`
together with its sled tree `data/blocks`): block values keyed by their
hex hash, the reserved `LAST` key, and the in-memory `tip`. -/
structure BCState where
  blocks : String → Option Block
  last : Option String
  tip : String

/-- `BlockchainIterator`: walk `prev_block_hash` links starting from a
hash, stopping at a missing key; `fuel` bounds the walk (the store is
finite and acyclic in every reachable configuration). -/
def chainIter (st : BCState) : Nat → String → List Block
  | 0, _ => []
  | fuel + 1, h =>
    match st.blocks h with
    | none => []
    | some b => b :: chainIter st fuel b.prev_block_hash

/-- The transaction lookup inside `Blockchain::find_transaction`, over the
block list the iterator yields: first transaction with the given id, else
`Transaction is not found.`. -/
def findTxInBlocks (blocks : List Block) (id : String) : Except Err Transaction :=
  match (blocks.flatMap Block.transactions).find? (fun tx => tx.id == id) with
  | some tx => .ok tx
  | none => .error .notFound

/-- `Blockchain::find_transaction(id)`. -/
def Blockchain.find_transaction (st : BCState) (fuel : Nat) (id : String) : Except Err Transaction :=
  findTxInBlocks (chainIter st fuel st.tip) id

/-- The resolution loop of `Blockchain::get_prev_txs`: for each input,
find the prior transaction (propagating `Transaction is not found.`) and
key the map by the found transaction's id. -/
def getPrevTxsLoop (blocks : List Block) :
    List TXInput → (String → Option Transaction) → Except Err (String → Option Transaction)
  | [], m => .ok m
  | vin :: rest, m =>
    match findTxInBlocks blocks vin.txid with
    | .error e => .error e
    | .ok p => getPrevTxsLoop blocks rest (fun k => if k = p.id then some p else m k)

/-- `Blockchain::get_prev_txs(tx)` over a block list. -/
def getPrevTxsIn (blocks : List Block) (tx : Transaction) :
    Except Err (String → Option Transaction) :=
  getPrevTxsLoop blocks tx.vin (fun _ => none)

/-- `Blockchain::get_prev_txs(tx)`. -/
def Blockchain.get_prev_txs (st : BCState) (fuel : Nat) (tx : Transaction) :
    Except Err (String → Option Transaction) :=
  getPrevTxsIn (chainIter st fuel st.tip) tx

/-- `Blockchain::verify_transaction(tx)` over a block list. -/
def verifyTxInChain (E : Deps) (blocks : List Block) (tx : Transaction) :
    Option (Except Err Bool) :=
  if tx.is_coinbase then some (.ok true)
  else
    match getPrevTxsIn blocks tx with
    | .error e => some (.error e)
    | .ok m => tx.verify E m

/-- `Blockchain::verify_transaction(tx)`. -/
def Blockchain.verify_transaction (E : Deps) (st : BCState) (fuel : Nat) (tx : Transaction) :
    Option (Except Err Bool) :=
  verifyTxInChain E (chainIter st fuel st.tip) tx

/-- `Blockchain::sign_transaction(tx, private_key)`. -/
def Blockchain.sign_transaction (E : Deps) (st : BCState) (fuel : Nat) (tx : Transaction)
    (private_key : List Nat) : Option (Except Err Transaction) :=
  match Blockchain.get_prev_txs st fuel tx with
  | .error e => some (.error e)
  | .ok m => tx.sign E private_key m

/-- `Blockchain::get_best_height()`: `-1` when `LAST` is absent; panics
(`none`) when `LAST` names a missing block. -/
def Blockchain.get_best_height (st : BCState) : Option Int :=
  match st.last with
  | none => some (-1)
  | some lh => (st.blocks lh).map Block.height

/-- `Blockchain::add_block(block)`: return unchanged if the hash exists;
otherwise insert, and advance `LAST`/`tip` when the height beats
`get_best_height` (queried after the insert). -/
def Blockchain.add_block (st : BCState) (block : Block) : Option BCState :=
  if (st.blocks block.hash).isSome then some st
  else
    let st1 : BCState :=
      { st with blocks := fun k => if k = block.hash then some block else st.blocks k }
    match Blockchain.get_best_height st1 with
    | none => none
    | some last_height =>
      if block.height > last_height then
        some { st1 with last := some block.hash, tip := block.hash }
      else some st1

/-- Writes issued against the sled `data/blocks` tree, in program order. -/
inductive DbOp where
  | putBlock (hash : String) : DbOp
  | putLast (hash : String) : DbOp
  | flush : DbOp
deriving DecidableEq, Repr

/-- The verification loop at the top of `Blockchain::mine_block`:
`verify_transaction` on each transaction; a `false` verdict returns
`ERROR: Invalid transaction.`; errors propagate. -/
def verifyAllTxs (E : Deps) (st : BCState) (fuel : Nat) :
    List Transaction → Option (Except Err Unit)
  | [] => some (.ok ())
  | tx :: rest =>
    match Blockchain.verify_transaction E st fuel tx with
    | none => none
    | some (.error e) => some (.error e)
    | some (.ok false) => some (.error .invalidTransaction)
    | some (.ok true) => verifyAllTxs E st fuel rest

/-- `Blockchain::mine_block(transactions)`: pre-verify, read `LAST`
(unwrap: panic when absent), mine a block at `get_best_height() + 1` with
the `LAST` hash as prev, then insert the block, write `LAST`, flush, and
set the tip.  Returns the result, the resulting store state (unchanged on
error), and the trace of store writes. -/
def Blockchain.mine_block (E : Deps) (powFuel iterFuel timestamp : Nat) (st : BCState)
    (transactions : List Transaction) : Option (Except Err Block × BCState × List DbOp) :=
  match verifyAllTxs E st iterFuel transactions with
  | none => none
  | some (.error e) => some (.error e, st, [])
  | some (.ok ()) =>
    match st.last with
    | none => none
    | some last_hash =>
      match Blockchain.get_best_height st with
      | none => none
      | some best =>
        match Block.new E powFuel timestamp transactions last_hash (best + 1) with
        | none => none
        | some new_block =>
          some (.ok new_block,
            { blocks := fun k => if k = new_block.hash then some new_block else st.blocks k
              last := some new_block.hash
              tip := new_block.hash },
            [DbOp.putBlock new_block.hash, DbOp.putLast new_block.hash, DbOp.flush])

/-- src/wallets.rs `struct Wallet`. -/
structure Wallet where
  secret_key : List Nat
  public_key : List Nat
deriving DecidableEq, Repr

/-- `Wallet::get_address`: encode the hashed public key. -/
def Wallet.get_address (E : Deps) (w : Wallet) : String :=
  E.encodeAddress (E.hashPubKey w.public_key)

/-- The sled `data/utxos` tree: serialised `TXOutputs` keyed by txid. -/
def Utxos : Type := String → Option TXOutputs

/-- The `spend_txos` accumulator of `Blockchain::find_utxo`:
`HashMap<String, Vec<i32>>`. -/
def SpentMap : Type := String → Option (List Int)

/-- The `utxos.get_mut / insert` step of `Blockchain::find_utxo`'s output
loop: append one output to the entry of `txid` (creating it). -/
def pushOutput (u : Utxos) (txid : String) (out : TXOutput) : Utxos :=
  fun k => if k = txid then some ⟨((u txid).map TXOutputs.outputs).getD [] ++ [out]⟩ else u k

/-- The output loop of `Blockchain::find_utxo` for one transaction: for
each output index not recorded in `spend_txos[tx.id]`, push the output. -/
def findUtxoOutputs (tx : Transaction) (spent : SpentMap) (u : Utxos) : Utxos :=
  tx.vout.enum.foldl
    (fun u p =>
      if ((spent tx.id).getD []).contains (p.1 : Int) then u
      else pushOutput u tx.id p.2)
    u

/-- The input loop of `Blockchain::find_utxo` for one transaction: for a
non-coinbase, append each input's `vout` to `spend_txos[input.txid]`. -/
def findUtxoSpends (tx : Transaction) (spent : SpentMap) : SpentMap :=
  if tx.is_coinbase then spent
  else
    tx.vin.foldl
      (fun sp i =>
        fun k => if k = i.txid then some ((sp i.txid).getD [] ++ [i.vout]) else sp k)
      spent

/-- One transaction step of `Blockchain::find_utxo`: outputs first, then
spends. -/
def findUtxoTx (st : Utxos × SpentMap) (tx : Transaction) : Utxos × SpentMap :=
  (findUtxoOutputs tx st.2 st.1, findUtxoSpends tx st.2)

/-- `Blockchain::find_utxo()`: fold over the blocks in iteration order
(tip first), over each block's transactions in order.  The chain argument
is the block list the iterator yields. -/
def Blockchain.find_utxo (chain : List Block) : Utxos :=
  (chain.foldl (fun st b => b.transactions.foldl findUtxoTx st)
    (fun _ => none, fun _ => none)).1

/-- `UTXOSet::reindex()`: wipe `data/utxos` and write exactly
`find_utxo`'s map. -/
def UTXOSet.reindex (chain : List Block) : Utxos :=
  Blockchain.find_utxo chain

/-- The `update_outputs` computation of `UTXOSet::update`: keep the
outputs of the stored entry at positions other than `i` (a negative `i`
is cast to `usize` in Rust and never equals a real position — everything
is kept). -/
def prunedAt (outs : List TXOutput) (i : Int) : List TXOutput :=
  (outs.enum.filter (fun p => (p.1 : Int) ≠ i)).map Prod.snd

/-- The inner input step of `UTXOSet::update`: load the referenced entry
(`unwrap`: panic when absent, modelled `none`), keep the outputs at
positions other than `vin.vout`, then delete the key if the pruned entry
is empty, else rewrite it. -/
def updateVin (u : Utxos) (vin : TXInput) : Option Utxos :=
  match u vin.txid with
  | none => none
  | some outs =>
    let update_outputs : List TXOutput := prunedAt outs.outputs vin.vout
    if update_outputs.isEmpty then
      some (fun k => if k = vin.txid then none else u k)
    else
      some (fun k => if k = vin.txid then some ⟨update_outputs⟩ else u k)

/-- One transaction step of `UTXOSet::update`: prune each non-coinbase
input's referenced entry, then insert the transaction's own outputs under
its id. -/
def updateTx (u : Utxos) (tx : Transaction) : Option Utxos := do
  let u ← if tx.is_coinbase then some u else tx.vin.foldlM updateVin u
  some (fun k => if k = tx.id then some ⟨tx.vout⟩ else u k)

/-- `UTXOSet::update(block)`. -/
def UTXOSet.update (u : Utxos) (block : Block) : Option Utxos :=
  block.transactions.foldlM updateTx u

/-- `update(b1); ...; update(bn)` in mining order. -/
def UTXOSet.updateSeq (u : Utxos) (bs : List Block) : Option Utxos :=
  bs.foldlM UTXOSet.update u

/-- Insertion-ordered association update used for
`unspent_outputs.get_mut / insert` in `UTXOSet::find_spendable_outputs`. -/
def addOutputIdx : List (String × List Int) → String → Int → List (String × List Int)
  | [], txid, i => [(txid, [i])]
  | (k, v) :: rest, txid, i =>
    if k = txid then (k, v ++ [i]) :: rest else (k, v) :: addOutputIdx rest txid i

/-- `UTXOSet::find_spendable_outputs(pub_key_hash, amount)`: iterate the
`data/utxos` tree (the `db` list, in sled iteration order); for each
output locked with the key while the running total is still below
`amount`, add its value and record its position. -/
def UTXOSet.find_spendable_outputs (pub_key_hash : List Nat) (amount : Int)
    (db : List (String × TXOutputs)) : Int × List (String × List Int) :=
  db.foldl
    (fun acc kv =>
      kv.2.outputs.enum.foldl
        (fun acc p =>
          if p.2.pub_key_hash == pub_key_hash && acc.1 < amount then
            (acc.1 + p.2.value, addOutputIdx acc.2 kv.1 (p.1 : Int))
          else acc)
        acc)
    (0, [])

/-- `Transaction::new_utxo(wallet, to, amount, utxo)`: select spendable
outputs, fail with `Not Enough balance` when they total below `amount`,
build one input per selected position carrying the wallet's public key,
emit the payment output and, on over-payment, a change output back to the
wallet's address, set the id, and sign through the chain. -/
def Transaction.new_utxo (E : Deps) (iterFuel : Nat) (st : BCState) (wallet : Wallet)
    (toAddr : String) (amount : Int) (db : List (String × TXOutputs)) :
    Option (Except Err Transaction) :=
  let pub_key_hash := E.hashPubKey wallet.public_key
  let acc_v := UTXOSet.find_spendable_outputs pub_key_hash amount db
  if acc_v.1 < amount then some (.error (.insufficientFunds acc_v.1))
  else
    let vin : List TXInput :=
      acc_v.2.flatMap fun txp =>
        txp.2.map fun out =>
          { txid := txp.1, vout := out, signature := [], pub_key := wallet.public_key }
    let vout : List TXOutput :=
      [TXOutput.new E amount toAddr] ++
        (if acc_v.1 > amount then [TXOutput.new E (acc_v.1 - amount) (Wallet.get_address E wallet)]
         else [])
    let tx0 : Transaction := { id := "", vin := vin, vout := vout }
    let tx1 : Transaction := { tx0 with id := tx0.hash E }
    Blockchain.sign_transaction E st iterFuel tx1 wallet.secret_key

/-- src/server.rs `struct VersionMsg`. -/
structure VersionMsg where
  addr_from : String
  version : Int
  best_height : Int
deriving DecidableEq, Repr

/-- src/server.rs `struct TxMsg`. -/
structure TxMsg where
  addr_from : String
  transaction : Transaction
deriving DecidableEq, Repr

/-- src/server.rs `struct GetDataMsg`. -/
structure GetDataMsg where
  addr_from : String
  kind : String
  id : String
deriving DecidableEq, Repr

/-- src/server.rs `struct GetBlockMsg`. -/
structure GetBlockMsg where
  addr_from : String
deriving DecidableEq, Repr

/-- src/server.rs `struct InvMsg`. -/
structure InvMsg where
  addr_from : String
  kind : String
  items : List String
deriving DecidableEq, Repr

/-- src/server.rs `struct BlockMsg`. -/
structure BlockMsg where
  addr_from : String
  block : Block
deriving DecidableEq, Repr

/-- src/server.rs `enum Message`. -/
inductive Message where
  | Addr (data : List String) : Message
  | Version (data : VersionMsg) : Message
  | Tx (data : TxMsg) : Message
  | GetData (data : GetDataMsg) : Message
  | GetBlock (data : GetBlockMsg) : Message
  | Inv (data : InvMsg) : Message
  | Block (data : BlockMsg) : Message
deriving DecidableEq, Repr

/-- The parts of src/server.rs `struct ServerInner` that the inv handler
touches (the chain/UTXO handle is not needed by it). -/
structure ServerInner where
  known_nodes : List String
  blocks_in_transit : List String
  mempool : String → Option Transaction

/-- A network send issued by a handler (`send_get_data` is the only send
`handle_inv` performs). -/
inductive Sent where
  | getData (dest kind id : String) : Sent
deriving DecidableEq, Repr

/-- `Server::replace_in_transit(hashes)`: overwrite the shared
`blocks_in_transit` list. -/
def Server.replace_in_transit (s : ServerInner) (hashes : List String) : ServerInner :=
  { s with blocks_in_transit := hashes }

/-- `Server::handle_inv(msg)`: kind "block" sends `get_data` for
`items[0]` (indexing panics on an empty list) and computes
`new_in_transit` from the remaining items — which the source then drops
on the floor: the shared `blocks_in_transit` is never written.  Kind "tx"
requests the transaction unless the mempool already holds it with a
non-empty id.  Returns the resulting state and the sends performed. -/
def Server.handle_inv (s : ServerInner) (msg : InvMsg) : Option (ServerInner × List Sent) :=
  if msg.kind = "block" then
    match msg.items.head? with
    | none => none
    | some block_hash =>
      let _new_in_transit := msg.items.filter fun b => b ≠ block_hash
      some (s, [Sent.getData msg.addr_from "block" block_hash])
  else if msg.kind = "tx" then
    match msg.items.head? with
    | none => none
    | some txid =>
      match s.mempool txid with
      | some tx =>
        if tx.id = "" then some (s, [Sent.getData msg.addr_from "tx" txid])
        else some (s, [])
      | none => some (s, [Sent.getData msg.addr_from "tx" txid])
  else some (s, [])

/-- External collaborators of the wire layer: `bincode::deserialize` at
each payload type (failure is a bincode error, not a panic) and the UTF-8
check performed by `String::from_utf8` on the command bytes. -/
structure WireDeps where
  deserAddr : List Nat → Option (List String)
  deserBlockMsg : List Nat → Option BlockMsg
  deserInvMsg : List Nat → Option InvMsg
  deserGetBlockMsg : List Nat → Option GetBlockMsg
  deserGetDataMsg : List Nat → Option GetDataMsg
  deserTxMsg : List Nat → Option TxMsg
  deserVersionMsg : List Nat → Option VersionMsg
  utf8Ok : List Nat → Bool

/-- Lift a deserialisation outcome into the handler result the `?`
operator produces: a bincode failure is an error return. -/
def deserOr (x : Option α) (f : α → Message) : Except Err Message :=
  match x with
  | some d => .ok (f d)
  | none => .error .formatError

/-- `bytes_to_cmd(bytes)` from src/server.rs: slice off the fixed 12-byte
command (out-of-bounds panic, `none`, when the buffer is shorter), strip
the zero padding, log the command through `String::from_utf8?`, then
dispatch on the command name; an unrecognised command is
`Unknown command in the server.`. -/
def bytes_to_cmd (W : WireDeps) (bytes : List Nat) : Option (Except Err Message) :=
  if bytes.length < CMD_LEN then none
  else
    let cmd_bytes := bytes.take CMD_LEN
    let data := bytes.drop CMD_LEN
    let cmd := cmd_bytes.filter fun b => 0 ≠ b
    if ¬ W.utf8Ok cmd then some (.error .formatError)
    else if cmd = strBytes "addr" then some (deserOr (W.deserAddr data) Message.Addr)
    else if cmd = strBytes "block" then some (deserOr (W.deserBlockMsg data) Message.Block)
    else if cmd = strBytes "inv" then some (deserOr (W.deserInvMsg data) Message.Inv)
    else if cmd = strBytes "get_blocks" then some (deserOr (W.deserGetBlockMsg data) Message.GetBlock)
    else if cmd = strBytes "get_data" then some (deserOr (W.deserGetDataMsg data) Message.GetData)
    else if cmd = strBytes "tx" then some (deserOr (W.deserTxMsg data) Message.Tx)
    else if cmd = strBytes "version" then some (deserOr (W.deserVersionMsg data) Message.Version)
    else some (.error .unknownCommand)

/-- A concrete instantiation of the external collaborators, used to
evaluate the theorems at concrete inputs: a constant digest that meets the
difficulty prefix, and a toy correct signature scheme whose public and
private key coincide (`verify m p s` checks `s = m ++ p`). -/
def depsToy : Deps where
  sha256hex := fun _ => "0000"
  serTransaction := fun _ => []
  serPreimage := fun _ _ _ _ _ => []
  merkleRoot := fun _ => []
  ed25519Signature := fun m k => m ++ k
  ed25519Verify := fun m p s => s == m ++ p
  decodeAddress := fun _ => [7]
  encodeAddress := fun _ => "addr"
  hashPubKey := fun _ => [7]

/-- A concrete instantiation of the wire-layer collaborators. -/
def wireToy : WireDeps where
  deserAddr := fun _ => none
  deserBlockMsg := fun _ => none
  deserInvMsg := fun _ => none
  deserGetBlockMsg := fun _ => none
  deserGetDataMsg := fun _ => none
  deserTxMsg := fun _ => none
  deserVersionMsg := fun _ => none
  utf8Ok := fun _ => true

/-- The concrete block the toy collaborators mine in one step. -/
def blockW : Block :=
  { timestamp := 0, transactions := [], prev_block_hash := "", hash := "0000",
    nonce := 0, height := 0 }

/-- A stored genesis block for the concrete chain states below. -/
def genesisW : Block :=
  { timestamp := 0, transactions := [], prev_block_hash := "", hash := "0000g",
    nonce := 0, height := 0 }

/-- A block whose hash does not meet the difficulty prefix. -/
def badBlockW : Block :=
  { timestamp := 1, transactions := [], prev_block_hash := "0000g", hash := "beef",
    nonce := 0, height := 1 }

/-- A chain store holding only the genesis block. -/
def bcStateW : BCState :=
  { blocks := fun k => if k = "0000g" then some genesisW else none
    last := some "0000g"
    tip := "0000g" }

/-- A node state with nothing in transit and an empty mempool. -/
def serverInnerW : ServerInner :=
  { known_nodes := [], blocks_in_transit := [], mempool := fun _ => none }

/-- An inv message of kind "block" carrying two block hashes. -/
def invMsgW : InvMsg := { addr_from := "peer", kind := "block", items := ["a", "b"] }


/-- Decidable equality for `Except` results, used to evaluate outcomes at
concrete inputs. -/
instance {e a : Type} [DecidableEq e] [DecidableEq a] : DecidableEq (Except e a) := fun x y =>
  match x, y with
  | .ok u, .ok v =>
    if h : u = v then isTrue (by rw [h]) else isFalse (fun hc => h (Except.ok.inj hc))
  | .error u, .error v =>
    if h : u = v then isTrue (by rw [h]) else isFalse (fun hc => h (Except.error.inj hc))
  | .ok _, .error _ => isFalse (fun hc => Except.noConfusion hc)
  | .error _, .ok _ => isFalse (fun hc => Except.noConfusion hc)

/-- A concrete coinbase transaction (shape as `new_coinbase` builds). -/
def cbW : Transaction :=
  { id := "C", vin := [{ txid := "", vout := -1, signature := [], pub_key := [3] }],
    vout := [{ value := 10, pub_key_hash := [7] }] }

/-- The block the toy collaborators mine on top of `genesisW` from `[cbW]`. -/
def nbW : Block :=
  { timestamp := 5, transactions := [cbW], prev_block_hash := "0000g", hash := "0000",
    nonce := 0, height := 1 }

/-- A wallet in the toy scheme (public and private key coincide). -/
def walletW : Wallet := { secret_key := [1], public_key := [1] }

/-- A confirmed coinbase holding 10 units for key hash `[7]`. -/
def prevTx0 : Transaction :=
  { id := "T0", vin := [{ txid := "", vout := -1, signature := [], pub_key := [2] }],
    vout := [{ value := 10, pub_key_hash := [7] }] }

/-- The block holding `prevTx0`. -/
def gBlockW : Block :=
  { timestamp := 0, transactions := [prevTx0], prev_block_hash := "", hash := "g",
    nonce := 0, height := 0 }

/-- A chain store holding only `gBlockW`. -/
def bcW : BCState :=
  { blocks := fun k => if k = "g" then some gBlockW else none
    last := some "g"
    tip := "g" }

/-- The UTXO view listing `prevTx0`'s unspent output. -/
def dbW : List (String × TXOutputs) :=
  [("T0", { outputs := [{ value := 10, pub_key_hash := [7] }] })]

/-- The transaction `new_utxo` builds from `walletW` over `dbW`. -/
def txW7 : Transaction :=
  { id := "0000",
    vin := [{ txid := "T0", vout := 0, signature := [48, 48, 48, 48, 1], pub_key := [1] }],
    vout := [{ value := 10, pub_key_hash := [7] }] }

/-- A prev-transactions map resolving `"T0"` to `prevTx0`. -/
def prevMapW : String → Option Transaction := fun k => if k = "T0" then some prevTx0 else none

/-- An unsigned transfer spending `prevTx0`'s output. -/
def txC3 : Transaction :=
  { id := "x", vin := [{ txid := "T0", vout := 0, signature := [], pub_key := [1] }],
    vout := [{ value := 10, pub_key_hash := [7] }] }

/-- `txC3` as the toy scheme signs it. -/
def txC3signed : Transaction :=
  { id := "x", vin := [{ txid := "T0", vout := 0, signature := [48, 48, 48, 48, 1], pub_key := [1] }],
    vout := [{ value := 10, pub_key_hash := [7] }] }

/-- The transactions a chain scan visits, in `find_utxo` order: blocks
tip-first, each block's transactions in block order. -/
def chainTxs (chain : List Block) : List Transaction :=
  chain.flatMap Block.transactions

/-- One indexed-output step of the single-key projection of the
`find_utxo` output loop. -/
def pushStep (skl : List Int) (uk : Option TXOutputs) (p : Nat × TXOutput) : Option TXOutputs :=
  if skl.contains (p.1 : Int) then uk
  else some ⟨((uk.map TXOutputs.outputs).getD []) ++ [p.2]⟩

/-- One input step of the single-key projection of the `find_utxo` spend
loop. -/
def spendStep (k : String) (sk : Option (List Int)) (i : TXInput) : Option (List Int) :=
  if i.txid = k then some (sk.getD [] ++ [i.vout]) else sk

/-- The projection of one `find_utxo` transaction step onto a single key
`k`: the entry and the spent list at `k` evolve exactly like this. -/
def stepK (k : String) (st : Option TXOutputs × Option (List Int)) (tx : Transaction) :
    Option TXOutputs × Option (List Int) :=
  let uk : Option TXOutputs :=
    if tx.id = k then tx.vout.enum.foldl (pushStep ((st.2).getD [])) st.1 else st.1
  let sk : Option (List Int) :=
    if tx.is_coinbase then st.2 else tx.vin.foldl (spendStep k) st.2
  (uk, sk)

/-- The inputs `UTXOSet::update` processes for a transaction list: the
inputs of the non-coinbase transactions, in order. -/
def refListTxs (txs : List Transaction) : List TXInput :=
  (txs.filter (fun tx => !tx.is_coinbase)).flatMap Transaction.vin

/-- The inputs `UTXOSet::update(block)` processes. -/
def refList (b : Block) : List TXInput :=
  refListTxs b.transactions

/-- The net effect of one entry pruning on an optional stored entry. -/
def pruneOpt (o : Option TXOutputs) (i : Int) : Option TXOutputs :=
  match o with
  | some outs =>
    if (prunedAt outs.outputs i).isEmpty then none else some ⟨prunedAt outs.outputs i⟩
  | none => none

/-- Pointwise description of the input-pruning fold of `UTXOSet::update`
over a list of inputs with pairwise-distinct txids. -/
def vinFoldFun (u : Utxos) (vins : List TXInput) : Utxos := fun k =>
  match vins.find? (fun v => v.txid == k) with
  | some v => pruneOpt (u k) v.vout
  | none => u k

/-- Pointwise description of `UTXOSet::update` over a whole transaction
list, under the goodness conditions below. -/
def updFunTxs (u : Utxos) (txs : List Transaction) : Utxos := fun k =>
  match txs.find? (fun tx => tx.id == k) with
  | some tx => some ⟨tx.vout⟩
  | none =>
    match (refListTxs txs).find? (fun v => v.txid == k) with
    | some v => pruneOpt (u k) v.vout
    | none => u k

/-- What `Blockchain::mine_block` guarantees for a block accepted on top
of a chain (tip-first list): linkage, height, a difficulty-meeting hash
over its own preimage, and every contained transaction verifying against
the chain. -/
def minedNext (E : Deps) (chain : List Block) (b : Block) : Bool :=
  (b.prev_block_hash == ((chain.head?.map Block.hash).getD "")) &&
  (b.height == ((chain.head?.map Block.height).getD (-1)) + 1) &&
  (b.hash == E.sha256hex (Block.prepare_hash_data E b)) &&
  Block.validate E b &&
  b.transactions.all (fun tx => decide (verifyTxInChain E chain tx = some (.ok true)))

/-- A sequence of blocks mined in order on top of a chain. -/
def minedSeq (E : Deps) : List Block → List Block → Bool
  | _, [] => true
  | chain, b :: bs => minedNext E chain b && minedSeq E (b :: chain) bs

/-- The restrictions under which the incremental `update` agrees with a
full `reindex` (see the counterexample: positional pruning breaks on
partial and repeated spends): fresh distinct non-empty-output transaction
ids, no intra-block spending, and each referenced transaction defined
exactly once in the chain, never spent before, with a non-empty output
list, and referenced by exactly one input of the block. -/
def GoodBlock (chain : List Block) (b : Block) : Prop :=
  (∀ tx ∈ b.transactions, tx.vout ≠ []) ∧
  (b.transactions.map Transaction.id).Nodup ∧
  (∀ tx ∈ b.transactions, ¬ tx.id ∈ (chainTxs chain).map Transaction.id) ∧
  (∀ v ∈ refList b, ¬ v.txid ∈ b.transactions.map Transaction.id) ∧
  ((refList b).map TXInput.txid).Nodup ∧
  (∀ v ∈ refList b, ((chainTxs chain).filter (fun tx => tx.id == v.txid)).length = 1) ∧
  (∀ v ∈ refList b, ∀ tx ∈ chainTxs chain, tx.id = v.txid → tx.vout ≠ []) ∧
  (∀ v ∈ refList b, ∀ tx ∈ chainTxs chain, ¬ tx.is_coinbase = true →
    ∀ w ∈ tx.vin, w.txid ≠ v.txid)

/-- `GoodBlock` at every step of a block sequence. -/
def goodSeq : List Block → List Block → Prop
  | _, [] => True
  | chain, b :: bs => GoodBlock chain b ∧ goodSeq (b :: chain) bs

instance instDecGoodBlock (chain : List Block) (b : Block) : Decidable (GoodBlock chain b) := by
  unfold GoodBlock
  exact inferInstance

instance instDecGoodSeq : (chain : List Block) → (bs : List Block) → Decidable (goodSeq chain bs)
  | _, [] => isTrue trivial
  | chain, b :: bs =>
    haveI : Decidable (goodSeq (b :: chain) bs) := instDecGoodSeq (b :: chain) bs
    inferInstanceAs (Decidable (GoodBlock chain b ∧ goodSeq (b :: chain) bs))

/-- A transfer spending the chain coinbase `prevTx0` into a payment and a
change output. -/
def txT1 : Transaction :=
  { id := "T1", vin := [{ txid := "T0", vout := 0, signature := [48, 48, 48, 48, 1], pub_key := [1] }],
    vout := [{ value := 4, pub_key_hash := [8] }, { value := 6, pub_key_hash := [7] }] }

/-- The coinbase of the first counterexample block. -/
def cb1CE : Transaction :=
  { id := "C1", vin := [{ txid := "", vout := -1, signature := [], pub_key := [9] }],
    vout := [{ value := 10, pub_key_hash := [9] }] }

/-- A transfer spending both of `txT1`'s outputs with two inputs. -/
def txT2 : Transaction :=
  { id := "T2",
    vin := [{ txid := "T1", vout := 0, signature := [48, 48, 48, 48, 1], pub_key := [1] },
            { txid := "T1", vout := 1, signature := [48, 48, 48, 48, 1], pub_key := [1] }],
    vout := [{ value := 10, pub_key_hash := [5] }] }

/-- The coinbase of the second counterexample block. -/
def cb2CE : Transaction :=
  { id := "C2", vin := [{ txid := "", vout := -1, signature := [], pub_key := [9] }],
    vout := [{ value := 10, pub_key_hash := [9] }] }

/-- First counterexample block: spends `(T0, 0)` in full. -/
def b1CE : Block :=
  { timestamp := 1, transactions := [txT1, cb1CE], prev_block_hash := "g", hash := "0000",
    nonce := 0, height := 1 }

/-- Second counterexample block: spends `(T1, 0)` and `(T1, 1)` in one
transaction. -/
def b2CE : Block :=
  { timestamp := 2, transactions := [txT2, cb2CE], prev_block_hash := "0000", hash := "0000",
    nonce := 0, height := 2 }

/-- A transfer spending the chain coinbase in full (used as the witness
of the amended C2). -/
def txSpendW : Transaction :=
  { id := "S", vin := [{ txid := "T0", vout := 0, signature := [48, 48, 48, 48, 1], pub_key := [1] }],
    vout := [{ value := 10, pub_key_hash := [8] }] }

/-- The coinbase of the witness block. -/
def cbGW : Transaction :=
  { id := "CG", vin := [{ txid := "", vout := -1, signature := [], pub_key := [9] }],
    vout := [{ value := 10, pub_key_hash := [9] }] }

/-- The witness block for the amended C2. -/
def bGoodW : Block :=
  { timestamp := 1, transactions := [txSpendW, cbGW], prev_block_hash := "g", hash := "0000",
    nonce := 0, height := 1 }

/-- Claim C9: `Transaction::hash` ignores the current `id` field — any two
transactions differing only in `id` have equal hashes — and it is
idempotent: hashing a transaction whose `id` has been set to its own hash
yields that hash again. -/
theorem transaction_hash_id_independent_and_idempotent :
    (∀ (E : Deps) (tx : Transaction) (a b : String),
      Transaction.hash E { tx with id := a } = Transaction.hash E { tx with id := b }) ∧
    (∀ (E : Deps) (tx : Transaction),
      Transaction.hash E { tx with id := Transaction.hash E tx } = Transaction.hash E tx) :=
  ⟨fun _ _ _ _ => rfl, fun _ _ => rfl⟩

/-- Claim C8: every transaction built by `Transaction::new_coinbase`
satisfies `is_coinbase` — exactly one input with empty `txid`, `vout = -1`
and empty signature — and carries exactly one output of `SUBSIDY = 10`
locked to the public-key hash decoded from the target address; and
`is_coinbase` returns true exactly when there is one input whose `txid` is
empty and whose `vout` is `-1`. -/
theorem new_coinbase_shape_and_is_coinbase :
    (∀ (E : Deps) (randKey : List Nat) (toAddr data : String),
      (Transaction.new_coinbase E randKey toAddr data).is_coinbase = true ∧
      (∃ pk, (Transaction.new_coinbase E randKey toAddr data).vin =
        [{ txid := "", vout := -1, signature := [], pub_key := pk }]) ∧
      (Transaction.new_coinbase E randKey toAddr data).vout =
        [{ value := SUBSIDY, pub_key_hash := E.decodeAddress toAddr }] ∧
      SUBSIDY = 10) ∧
    (∀ tx : Transaction,
      tx.is_coinbase = true ↔ ∃ v, tx.vin = [v] ∧ v.txid = "" ∧ v.vout = -1) := by
  constructor
  · intro E randKey toAddr data
    exact ⟨rfl, ⟨_, rfl⟩, rfl, rfl⟩
  · intro tx
    constructor
    · intro h
      rw [Transaction.is_coinbase] at h
      rcases hv : tx.vin with _ | ⟨v, rest⟩
      · rw [hv] at h; simp at h
      · rcases rest with _ | ⟨w, rest'⟩
        · rw [hv] at h
          simp at h
          exact ⟨v, rfl, h.1, h.2⟩
        · rw [hv] at h; simp at h
    · rintro ⟨v, hv, ht, hvo⟩
      rw [Transaction.is_coinbase, hv]
      simp [ht, hvo]

/-- Claim C10: for every buffer of at least `CMD_LEN = 12` bytes,
`bytes_to_cmd` is total — it returns a parsed `Message` or an error
(unknown command, UTF-8 or bincode failure); for a shorter buffer the
slice `bytes[..CMD_LEN]` is out of bounds and the function panics, so
totality of the dispatch in `handle_connection` needs the 12-byte
precondition. -/
theorem bytes_to_cmd_total_iff_len (W : WireDeps) (bytes : List Nat) :
    (CMD_LEN ≤ bytes.length → (bytes_to_cmd W bytes).isSome = true) ∧
    (bytes.length < CMD_LEN → bytes_to_cmd W bytes = none) := by
  constructor
  · intro h
    rw [bytes_to_cmd, if_neg (by omega)]
    dsimp only
    repeat' split
    all_goals rfl
  · intro h
    rw [bytes_to_cmd, if_pos h]

/-- Witness for C10 at concrete buffers: 12 zero bytes parse (to the
unknown-command error), 2 bytes panic. -/
theorem bytes_to_cmd_total_iff_len_witness :
    (CMD_LEN ≤ (List.replicate 12 0).length ∧
      (bytes_to_cmd wireToy (List.replicate 12 0)).isSome = true) ∧
    ((List.replicate 2 0).length < CMD_LEN ∧
      bytes_to_cmd wireToy (List.replicate 2 0) = none) :=
  ⟨⟨by decide, (bytes_to_cmd_total_iff_len wireToy (List.replicate 12 0)).1 (by decide)⟩,
   ⟨by decide, (bytes_to_cmd_total_iff_len wireToy (List.replicate 2 0)).2 (by decide)⟩⟩

/-- `prepare_hash_data` never reads the `hash` field, so overwriting the
hash leaves the preimage unchanged. -/
theorem prepare_hash_data_set_hash (E : Deps) (b : Block) (h : String) :
    Block.prepare_hash_data E { b with hash := h } = Block.prepare_hash_data E b := rfl

/-- Post-condition of the proof-of-work loop: a successfully mined block
stores the full digest of its own preimage, and that digest meets the
difficulty prefix. -/
theorem run_proof_of_work_post (E : Deps) :
    ∀ (fuel : Nat) (b b' : Block), Block.run_proof_of_work E fuel b = some b' →
      b'.hash = E.sha256hex (Block.prepare_hash_data E b') ∧
      b'.hash.take TARGET_HEXS = String.mk (List.replicate TARGET_HEXS (Char.ofNat 48))
  | 0, b, b', h => by simp [Block.run_proof_of_work] at h
  | fuel + 1, b, b', h => by
    rw [Block.run_proof_of_work] at h
    by_cases hv : b.validate E = true
    · rw [if_pos hv] at h
      injection h with h
      subst h
      refine ⟨by simp [prepare_hash_data_set_hash], ?_⟩
      rw [Block.validate] at hv
      exact beq_iff_eq.mp hv
    · rw [if_neg hv] at h
      exact run_proof_of_work_post E fuel _ b' h

/-- Claim C1: every block returned by `Block::new` has `hash` equal to the
SHA-256 hex digest of `prepare_hash_data` — the deterministic
serialisation of the tuple `(prev_block_hash, merkle root of the
transactions, timestamp, TARGET_HEXS, nonce)` — and the first
`TARGET_HEXS = 4` characters of that digest are all '0'. -/
theorem block_new_hash_meets_target (E : Deps) (fuel ts : Nat) (txs : List Transaction)
    (prev : String) (height : Int) (b' : Block)
    (h : Block.new E fuel ts txs prev height = some b') :
    b'.hash = E.sha256hex (Block.prepare_hash_data E b') ∧
    b'.hash.take TARGET_HEXS = String.mk (List.replicate TARGET_HEXS (Char.ofNat 48)) :=
  run_proof_of_work_post E fuel _ b' h

/-- Witness for C1 at a concrete mining run. -/
theorem block_new_hash_meets_target_witness :
    Block.new depsToy 1 0 [] "" 0 = some blockW ∧
    blockW.hash = depsToy.sha256hex (Block.prepare_hash_data depsToy blockW) ∧
    blockW.hash.take TARGET_HEXS = String.mk (List.replicate TARGET_HEXS (Char.ofNat 48)) :=
  ⟨by decide,
   (block_new_hash_meets_target depsToy 1 0 [] "" 0 blockW (by decide)).1,
   (block_new_hash_meets_target depsToy 1 0 [] "" 0 blockW (by decide)).2⟩

/-- Claim C4 (code bug): `Blockchain::add_block` accepts a block whose
hash does not start with `TARGET_HEXS` zeros — it stores the block and
advances `LAST` and the tip, instead of refusing it and leaving the store
unchanged as the claim requires. -/
theorem add_block_accepts_bad_pow :
    badBlockW.hash.take TARGET_HEXS ≠ String.mk (List.replicate TARGET_HEXS (Char.ofNat 48)) ∧
    (Blockchain.add_block bcStateW badBlockW).map
        (fun st => (st.blocks badBlockW.hash, st.last, st.tip)) =
      some (some badBlockW, some badBlockW.hash, badBlockW.hash) :=
  ⟨by decide, rfl⟩

/-- Claim C5 (code bug): on an inv message of kind "block" with items
`["a","b"]` the handler does send `get_data{kind:"block", id:"a"}` to the
sender, but it returns the node state with `blocks_in_transit` untouched
(still `[]`): the computed remaining items `["b"]` are never written to
the shared state, contrary to the claim (and to spec §9's stated intent). -/
theorem handle_inv_keeps_in_transit :
    (Server.handle_inv serverInnerW invMsgW).map (fun r => (r.1.blocks_in_transit, r.2)) =
      some ([], [Sent.getData "peer" "block" "a"]) ∧
    invMsgW.items.drop 1 = ["b"] ∧ ([] : List String) ≠ ["b"] :=
  ⟨rfl, rfl, by decide⟩

/-- The pre-verification loop of `mine_block` surfaces the first failing
transaction as `ERROR: Invalid transaction.`. -/
theorem verifyAllTxs_first_failure (E : Deps) (st : BCState) (fuel : Nat) :
    ∀ (pre : List Transaction) (rest : List Transaction) (tx : Transaction),
      (∀ t ∈ pre, Blockchain.verify_transaction E st fuel t = some (.ok true)) →
      Blockchain.verify_transaction E st fuel tx = some (.ok false) →
      verifyAllTxs E st fuel (pre ++ tx :: rest) = some (.error .invalidTransaction)
  | [], rest, tx, _, htx => by
    rw [List.nil_append, verifyAllTxs, htx]
  | p :: pre, rest, tx, hpre, htx => by
    rw [List.cons_append, verifyAllTxs, hpre p (by simp)]
    exact verifyAllTxs_first_failure E st fuel pre rest tx
      (fun t ht => hpre t (by simp [ht])) htx

/-- The proof-of-work loop only ever touches `nonce` and `hash`. -/
theorem run_proof_of_work_fields (E : Deps) :
    ∀ (fuel : Nat) (b b' : Block), Block.run_proof_of_work E fuel b = some b' →
      b'.prev_block_hash = b.prev_block_hash ∧ b'.height = b.height ∧
      b'.transactions = b.transactions ∧ b'.timestamp = b.timestamp
  | 0, b, b', h => by simp [Block.run_proof_of_work] at h
  | fuel + 1, b, b', h => by
    rw [Block.run_proof_of_work] at h
    by_cases hv : b.validate E = true
    · rw [if_pos hv] at h
      injection h with h
      subst h
      exact ⟨rfl, rfl, rfl, rfl⟩
    · rw [if_neg hv] at h
      exact run_proof_of_work_fields E fuel { b with nonce := b.nonce + 1 } b' h

/-- Claim C6: `mine_block` pre-verifies every transaction against the
current chain before touching the store; a transaction that fails
verification makes it return `ERROR: Invalid transaction.` with the store,
`LAST` and tip unchanged and no writes issued; otherwise it mines a block
whose prev hash is the current `LAST` value and whose height is
`get_best_height() + 1`, and commits by writing the block, then `LAST`,
then flushing. -/
theorem mine_block_verifies_then_commits (E : Deps) (powFuel iterFuel ts : Nat) (st : BCState) :
    (∀ (pre rest : List Transaction) (tx : Transaction),
      (∀ t ∈ pre, Blockchain.verify_transaction E st iterFuel t = some (.ok true)) →
      Blockchain.verify_transaction E st iterFuel tx = some (.ok false) →
      Blockchain.mine_block E powFuel iterFuel ts st (pre ++ tx :: rest) =
        some (.error .invalidTransaction, st, [])) ∧
    (∀ (txs : List Transaction) (lh : String) (best : Int) (nb : Block),
      verifyAllTxs E st iterFuel txs = some (.ok ()) →
      st.last = some lh →
      Blockchain.get_best_height st = some best →
      Block.new E powFuel ts txs lh (best + 1) = some nb →
      Blockchain.mine_block E powFuel iterFuel ts st txs =
        some (.ok nb,
          { blocks := fun k => if k = nb.hash then some nb else st.blocks k
            last := some nb.hash
            tip := nb.hash },
          [DbOp.putBlock nb.hash, DbOp.putLast nb.hash, DbOp.flush]) ∧
      nb.prev_block_hash = lh ∧ nb.height = best + 1 ∧ nb.transactions = txs) := by
  constructor
  · intro pre rest tx hpre htx
    rw [Blockchain.mine_block, verifyAllTxs_first_failure E st iterFuel pre rest tx hpre htx]
  · intro txs lh best nb hv hl hb hm
    refine ⟨?_, ?_⟩
    · simp only [Blockchain.mine_block, hv, hl, hb, hm]
    · have hf := run_proof_of_work_fields E powFuel _ nb hm
      exact ⟨hf.1, hf.2.1, hf.2.2.1⟩

/-- Witness for C6 at a concrete successful mining run. -/
theorem mine_block_verifies_then_commits_witness :
    verifyAllTxs depsToy bcStateW 2 [cbW] = some (.ok ()) ∧
    bcStateW.last = some "0000g" ∧
    Blockchain.get_best_height bcStateW = some 0 ∧
    Block.new depsToy 1 5 [cbW] "0000g" (0 + 1) = some nbW ∧
    (Blockchain.mine_block depsToy 1 2 5 bcStateW [cbW] =
      some (.ok nbW,
        { blocks := fun k => if k = nbW.hash then some nbW else bcStateW.blocks k
          last := some nbW.hash
          tip := nbW.hash },
        [DbOp.putBlock nbW.hash, DbOp.putLast nbW.hash, DbOp.flush]) ∧
      nbW.prev_block_hash = "0000g" ∧ nbW.height = 0 + 1 ∧ nbW.transactions = [cbW]) :=
  ⟨by decide, by decide, by decide, by decide,
   (mine_block_verifies_then_commits depsToy 1 2 5 bcStateW).2 [cbW] "0000g" 0 nbW
     (by decide) (by decide) (by decide) (by decide)⟩

/-- `find_transaction` fails only with `NotFound`. -/
theorem findTxInBlocks_error (blocks : List Block) (id : String) (e : Err)
    (h : findTxInBlocks blocks id = .error e) : e = .notFound := by
  rw [findTxInBlocks] at h
  split at h
  · exact absurd h (by simp)
  · exact (Except.error.inj h).symm

/-- `get_prev_txs` fails only with `NotFound`. -/
theorem getPrevTxsLoop_error (blocks : List Block) :
    ∀ (vins : List TXInput) (m : String → Option Transaction) (e : Err),
      getPrevTxsLoop blocks vins m = .error e → e = .notFound
  | [], m, e, h => by exact absurd h (by simp [getPrevTxsLoop])
  | vin :: rest, m, e, h => by
    rw [getPrevTxsLoop] at h
    split at h
    · rename_i e1 heq
      injection h with h
      subst h
      exact findTxInBlocks_error blocks vin.txid e1 heq
    · exact getPrevTxsLoop_error blocks rest _ e h

/-- The sign/verify guard loop fails only with
`Previous transaction is not correct.`. -/
theorem checkPrevTxs_error (prevTxs : String → Option Transaction) :
    ∀ (vins : List TXInput) (e : Err),
      checkPrevTxs prevTxs vins = some (.error e) → e = .prevTxIncorrect
  | [], e, h => by exact absurd h (by simp [checkPrevTxs])
  | vin :: rest, e, h => by
    rw [checkPrevTxs] at h
    split at h
    · exact absurd h (by simp)
    · split at h
      · exact (Except.error.inj (Option.some.inj h)).symm
      · exact checkPrevTxs_error prevTxs rest e h

/-- `Transaction::sign` fails only with
`Previous transaction is not correct.`. -/
theorem transaction_sign_error (E : Deps) (tx : Transaction) (priv : List Nat)
    (prevTxs : String → Option Transaction) (e : Err)
    (h : Transaction.sign E tx priv prevTxs = some (.error e)) : e = .prevTxIncorrect := by
  rw [Transaction.sign] at h
  split at h
  · exact absurd h (by simp)
  · split at h
    · exact absurd h (by simp)
    · rename_i e1 heq
      injection h with h
      injection h with h
      subst h
      exact checkPrevTxs_error prevTxs tx.vin e1 heq
    · rcases Option.map_eq_some'.mp h with ⟨x, -, hx⟩
      exact absurd hx (by simp)

/-- `Blockchain::sign_transaction` fails only with `NotFound` or
`Previous transaction is not correct.`. -/
theorem sign_transaction_error (E : Deps) (st : BCState) (fuel : Nat) (tx : Transaction)
    (priv : List Nat) (e : Err)
    (h : Blockchain.sign_transaction E st fuel tx priv = some (.error e)) :
    e = .notFound ∨ e = .prevTxIncorrect := by
  rw [Blockchain.sign_transaction] at h
  split at h
  · rename_i e1 heq
    injection h with h
    injection h with h
    subst h
    exact .inl (getPrevTxsLoop_error _ tx.vin _ e1 heq)
  · exact .inr (transaction_sign_error E tx priv _ e h)

/-- The signing loop writes only input signatures: outputs survive. -/
theorem signLoop_vout (E : Deps) (priv : List Nat) (prevTxs : String → Option Transaction) :
    ∀ (ids : List Nat) (copy self self' : Transaction),
      Transaction.signLoop E priv prevTxs ids copy self = some self' → self'.vout = self.vout
  | [], copy, self, self', h => by
    rw [Transaction.signLoop] at h
    injection h with h
    rw [← h]
  | in_id :: rest, copy, self, self', h => by
    rw [Transaction.signLoop] at h
    repeat' split at h
    all_goals try exact Option.noConfusion h
    have h2 := signLoop_vout E priv prevTxs rest _ _ _ h
    exact h2

/-- `Transaction::sign` preserves the output list. -/
theorem transaction_sign_ok_vout (E : Deps) (tx : Transaction) (priv : List Nat)
    (prevTxs : String → Option Transaction) (tx' : Transaction)
    (h : Transaction.sign E tx priv prevTxs = some (.ok tx')) : tx'.vout = tx.vout := by
  rw [Transaction.sign] at h
  split at h
  · injection h with h
    injection h with h
    rw [← h]
  · split at h
    · exact absurd h (by simp)
    · exact absurd h (by simp)
    · rcases Option.map_eq_some'.mp h with ⟨x, hx, hxe⟩
      injection hxe with hxe
      subst hxe
      exact signLoop_vout E priv prevTxs _ _ _ _ hx

/-- `Blockchain::sign_transaction` preserves the output list. -/
theorem sign_transaction_ok_vout (E : Deps) (st : BCState) (fuel : Nat) (tx : Transaction)
    (priv : List Nat) (tx' : Transaction)
    (h : Blockchain.sign_transaction E st fuel tx priv = some (.ok tx')) : tx'.vout = tx.vout := by
  rw [Blockchain.sign_transaction] at h
  split at h
  · exact absurd h (by simp)
  · exact transaction_sign_ok_vout E tx priv _ tx' h

/-- Claim C7: `new_utxo` fails with `InsufficientFunds` exactly when the
spendable outputs found for the wallet's public-key hash total strictly
less than `amount`; and when it succeeds its output list is exactly one
payment output `(amount, to)`, plus one change output
`(total − amount, wallet address)` exactly when the selection over-pays. -/
theorem new_utxo_insufficient_funds_and_outputs (E : Deps) (iterFuel : Nat) (st : BCState)
    (wallet : Wallet) (toAddr : String) (amount : Int) (db : List (String × TXOutputs)) :
    ((∃ bal, Transaction.new_utxo E iterFuel st wallet toAddr amount db =
        some (.error (.insufficientFunds bal))) ↔
      (UTXOSet.find_spendable_outputs (E.hashPubKey wallet.public_key) amount db).1 < amount) ∧
    (∀ tx', Transaction.new_utxo E iterFuel st wallet toAddr amount db = some (.ok tx') →
      tx'.vout =
        [TXOutput.new E amount toAddr] ++
          (if (UTXOSet.find_spendable_outputs (E.hashPubKey wallet.public_key) amount db).1 > amount
           then [TXOutput.new E
             ((UTXOSet.find_spendable_outputs (E.hashPubKey wallet.public_key) amount db).1
               - amount)
             (Wallet.get_address E wallet)]
           else [])) := by
  constructor
  · constructor
    · rintro ⟨bal, hb⟩
      simp only [Transaction.new_utxo] at hb
      split at hb
      · assumption
      · rcases sign_transaction_error E st iterFuel _ wallet.secret_key _ hb with h | h <;>
          exact absurd h (by simp)
    · intro hlt
      refine ⟨(UTXOSet.find_spendable_outputs (E.hashPubKey wallet.public_key) amount db).1, ?_⟩
      simp only [Transaction.new_utxo]
      rw [if_pos hlt]
  · intro tx' h
    simp only [Transaction.new_utxo] at h
    split at h
    · exact absurd h (by simp)
    · rw [sign_transaction_ok_vout E st iterFuel _ wallet.secret_key tx' h]

/-- Witness for C7: a concrete successful transfer spending the whole
selection (no change output). -/
theorem new_utxo_insufficient_funds_and_outputs_witness :
    Transaction.new_utxo depsToy 2 bcW walletW "B" 10 dbW = some (.ok txW7) ∧
    txW7.vout =
      [TXOutput.new depsToy 10 "B"] ++
        (if (UTXOSet.find_spendable_outputs (depsToy.hashPubKey walletW.public_key) 10 dbW).1 > 10
         then [TXOutput.new depsToy
           ((UTXOSet.find_spendable_outputs (depsToy.hashPubKey walletW.public_key) 10 dbW).1 - 10)
           (Wallet.get_address depsToy walletW)]
         else []) :=
  ⟨by decide,
   (new_utxo_insufficient_funds_and_outputs depsToy 2 bcW walletW "B" 10 dbW).2 txW7 (by decide)⟩

/-- The signing loop leaves inputs at unprocessed indices untouched. -/
theorem signLoop_frame (E : Deps) (priv : List Nat) (prevTxs : String → Option Transaction) :
    ∀ (ids : List Nat) (copy self self' : Transaction) (j : Nat),
      Transaction.signLoop E priv prevTxs ids copy self = some self' →
      j ∉ ids → self'.vin[j]? = self.vin[j]?
  | [], copy, self, self', j, h, _ => by
    rw [Transaction.signLoop] at h
    injection h with h
    rw [← h]
  | i :: rest, copy, self, self', j, h, hj => by
    have hij : i ≠ j := fun e => hj (e ▸ List.mem_cons_self i rest)
    rw [Transaction.signLoop] at h
    repeat' split at h
    all_goals try exact Option.noConfusion h
    have h2 := signLoop_frame E priv prevTxs rest _ _ _ j h
      (fun hr => hj (List.mem_cons_of_mem i hr))
    rw [h2]
    exact List.getElem?_set_ne hij

/-- The heart of the round trip: after the signing loop ran over a set of
distinct indices whose copy/original inputs agree on txid and vout, and
the key pair verifies what it signs for each input's public key, the
verification loop accepts every input starting from the same trimmed
copy. -/
theorem signLoop_then_verifyLoop (E : Deps) (priv : List Nat) (prevTxs : String → Option Transaction) :
    ∀ (ids : List Nat) (copy self self' : Transaction),
      Transaction.signLoop E priv prevTxs ids copy self = some self' →
      ids.Nodup →
      (∀ i ∈ ids, ∀ cv sv, copy.vin[i]? = some cv → self.vin[i]? = some sv →
        cv.txid = sv.txid ∧ cv.vout = sv.vout) →
      (∀ i ∈ ids, ∀ sv, self.vin[i]? = some sv →
        ∀ m, E.ed25519Verify m sv.pub_key (E.ed25519Signature m priv) = true) →
      Transaction.verifyLoop E prevTxs self' ids copy = some (.ok true)
  | [], copy, self, self', h, _, _, _ => by
    rw [Transaction.verifyLoop]
  | i :: rest, copy, self, self', h, hnd, hs, hk => by
    rw [Transaction.signLoop] at h
    repeat' split at h
    all_goals try exact Option.noConfusion h
    rename_i x1 x2 a b hcv hsv xp p hp hneg xo out hout
    obtain ⟨hti, hvi⟩ := hs i (List.mem_cons_self i rest) a b hcv hsv
    have hlen : i < self.vin.length := (List.getElem?_eq_some_iff.mp hsv).1
    have hni : i ∉ rest := (List.nodup_cons.mp hnd).1
    have hfr := signLoop_frame E priv prevTxs rest _ _ _ i h hni
    have hp' : prevTxs b.txid = some p := hti ▸ hp
    have hneg' : ¬b.vout < 0 := hvi ▸ hneg
    have hout' : p.vout[b.vout.toNat]? = some out := hvi ▸ hout
    rw [Transaction.verifyLoop, hfr]
    dsimp only
    rw [List.getElem?_set_self hlen, hcv]
    dsimp only
    rw [hp']
    dsimp only
    rw [if_neg hneg', hout']
    dsimp only
    rw [if_pos (hk i (List.mem_cons_self i rest) b hsv _)]
    exact signLoop_then_verifyLoop E priv prevTxs rest _ _ self' h (List.nodup_cons.mp hnd).2
      (fun j hj cv sv hc hs2 => by
        have hij : i ≠ j := fun e => hni (e ▸ hj)
        dsimp only at hc hs2
        rw [List.getElem?_set_ne hij, List.getElem?_set_ne hij] at hc
        rw [List.getElem?_set_ne hij] at hs2
        exact hs j (List.mem_cons_of_mem i hj) cv sv hc hs2)
      (fun j hj sv hsv2 => by
        have hij : i ≠ j := fun e => hni (e ▸ hj)
        dsimp only at hsv2
        rw [List.getElem?_set_ne hij] at hsv2
        exact hk j (List.mem_cons_of_mem i hj) sv hsv2)

/-- The signing loop never touches the `id` field of the original. -/
theorem signLoop_id (E : Deps) (priv : List Nat) (prevTxs : String → Option Transaction) :
    ∀ (ids : List Nat) (copy self self' : Transaction),
      Transaction.signLoop E priv prevTxs ids copy self = some self' → self'.id = self.id
  | [], copy, self, self', h => by
    rw [Transaction.signLoop] at h
    injection h with h
    rw [← h]
  | in_id :: rest, copy, self, self', h => by
    rw [Transaction.signLoop] at h
    repeat' split at h
    all_goals try exact Option.noConfusion h
    have h2 := signLoop_id E priv prevTxs rest _ _ _ h
    exact h2

/-- Pointwise: the signing loop either leaves an input unchanged or
rewrites only its signature (txid, vout and pub_key survive). -/
theorem signLoop_shape (E : Deps) (priv : List Nat) (prevTxs : String → Option Transaction) :
    ∀ (ids : List Nat) (copy self self' : Transaction) (j : Nat),
      Transaction.signLoop E priv prevTxs ids copy self = some self' →
      self'.vin[j]? = self.vin[j]? ∨
      ∃ va vb, self'.vin[j]? = some va ∧ self.vin[j]? = some vb ∧
        va.txid = vb.txid ∧ va.vout = vb.vout ∧ va.pub_key = vb.pub_key
  | [], copy, self, self', j, h => by
    rw [Transaction.signLoop] at h
    injection h with h
    exact .inl (by rw [← h])
  | i :: rest, copy, self, self', j, h => by
    rw [Transaction.signLoop] at h
    repeat' split at h
    all_goals try exact Option.noConfusion h
    rename_i x1 x2 a b hcv hsv xp p hp hneg xo out hout
    have hlen : i < self.vin.length := (List.getElem?_eq_some_iff.mp hsv).1
    have ih := signLoop_shape E priv prevTxs rest _ _ _ j h
    by_cases hij : i = j
    · subst hij
      rcases ih with heq | ⟨va, vb, hva, hvb, hsh⟩
      · right
        have hv' : ∃ nv, self'.vin[i]? = some nv ∧
            nv.txid = b.txid ∧ nv.vout = b.vout ∧ nv.pub_key = b.pub_key := by
          rw [heq]
          dsimp only
          rw [List.getElem?_set_self hlen]
          exact ⟨_, rfl, rfl, rfl, rfl⟩
        obtain ⟨nv, h1, h2, h3, h4⟩ := hv'
        exact ⟨nv, b, h1, hsv, h2, h3, h4⟩
      · right
        dsimp only at hvb
        rw [List.getElem?_set_self hlen] at hvb
        injection hvb with hvb
        subst hvb
        exact ⟨va, b, hva, hsv, hsh.1, hsh.2.1, hsh.2.2⟩
    · rcases ih with heq | ⟨va, vb, hva, hvb, hsh⟩
      · left
        rw [heq]
        dsimp only
        exact List.getElem?_set_ne hij
      · right
        dsimp only at hvb
        rw [List.getElem?_set_ne hij] at hvb
        exact ⟨va, vb, hva, hvb, hsh⟩

/-- The guard loop reads only the input txids. -/
theorem checkPrevTxs_congr (prevTxs : String → Option Transaction) :
    ∀ (v1 v2 : List TXInput), v1.map TXInput.txid = v2.map TXInput.txid →
      checkPrevTxs prevTxs v1 = checkPrevTxs prevTxs v2
  | [], [], _ => rfl
  | [], _ :: _, h => by simp at h
  | _ :: _, [], h => by simp at h
  | v :: t1, w :: t2, h => by
    simp only [List.map_cons, List.cons.injEq] at h
    rw [checkPrevTxs, checkPrevTxs, h.1]
    cases prevTxs w.txid with
    | none => rfl
    | some p =>
      dsimp only
      by_cases hid : p.id = ""
      · rw [if_pos hid, if_pos hid]
      · rw [if_neg hid, if_neg hid]
        exact checkPrevTxs_congr prevTxs t1 t2 h.2

/-- `is_coinbase` reads only input txids, vouts and the count. -/
theorem is_coinbase_eq_of (tx' tx : Transaction)
    (hmap : tx'.vin.map TXInput.txid = tx.vin.map TXInput.txid)
    (h0 : ∀ va vb, tx'.vin[0]? = some va → tx.vin[0]? = some vb → va.vout = vb.vout) :
    tx'.is_coinbase = tx.is_coinbase := by
  have hlen : tx'.vin.length = tx.vin.length := by
    have h2 := congrArg List.length hmap
    simpa [List.length_map] using h2
  rw [Transaction.is_coinbase, Transaction.is_coinbase]
  rcases h1 : tx'.vin with _ | ⟨a, t1⟩ <;> rcases h2 : tx.vin with _ | ⟨b, t2⟩
  · rfl
  · rw [h1, h2] at hlen; simp at hlen
  · rw [h1, h2] at hlen; simp at hlen
  · have hts : a.txid = b.txid := by
      rw [h1, h2] at hmap
      simp only [List.map_cons, List.cons.injEq] at hmap
      exact hmap.1
    have hvs : a.vout = b.vout :=
      h0 a b (by rw [h1]; exact List.getElem?_cons_zero) (by rw [h2]; exact List.getElem?_cons_zero)
    rw [h1, h2] at hlen
    simp only [List.length_cons] at hlen
    simp [hlen, hts, hvs]

/-- Claim C3: sign-then-verify round trip.  For a coinbase, `sign` is a
no-op and `verify` trivially succeeds.  For a non-coinbase transaction
whose inputs each resolve through `prev_txs` to a previous transaction
with a non-empty id and an output at the input's vout index, signing with
the private key matching each input's `pub_key` yields a transaction that
`verify(prev_txs)` accepts. -/
theorem sign_then_verify_round_trip :
    (∀ (E : Deps) (tx : Transaction) (priv : List Nat) (prevTxs : String → Option Transaction),
      tx.is_coinbase = true →
      Transaction.sign E tx priv prevTxs = some (.ok tx) ∧
      Transaction.verify E tx prevTxs = some (.ok true)) ∧
    (∀ (E : Deps) (tx tx' : Transaction) (priv : List Nat)
      (prevTxs : String → Option Transaction),
      (∀ (i : Nat) (v : TXInput), tx.vin[i]? = some v →
        ∃ p, prevTxs v.txid = some p ∧ p.id ≠ "" ∧ 0 ≤ v.vout ∧ v.vout.toNat < p.vout.length) →
      (∀ (i : Nat) (v : TXInput), tx.vin[i]? = some v →
        ∀ m, E.ed25519Verify m v.pub_key (E.ed25519Signature m priv) = true) →
      Transaction.sign E tx priv prevTxs = some (.ok tx') →
      Transaction.verify E tx' prevTxs = some (.ok true)) := by
  constructor
  · intro E tx priv prevTxs hcb
    constructor
    · rw [Transaction.sign, if_pos hcb]
    · rw [Transaction.verify, if_pos hcb]
  · intro E tx tx' priv prevTxs href hkey hsign
    by_cases hcb : tx.is_coinbase = true
    · rw [Transaction.sign, if_pos hcb] at hsign
      injection hsign with hsign
      injection hsign with hsign
      subst hsign
      rw [Transaction.verify, if_pos hcb]
    · rw [Transaction.sign, if_neg hcb] at hsign
      split at hsign
      · exact Option.noConfusion hsign
      · exact Except.noConfusion (Option.some.inj hsign)
      · rename_i u hchk
        rcases Option.map_eq_some'.mp hsign with ⟨x, hx, hxe⟩
        injection hxe with hxe
        subst hxe
        -- facts about the signed transaction
        have hid := signLoop_id E priv prevTxs _ _ _ _ hx
        have hvout := signLoop_vout E priv prevTxs _ _ _ _ hx
        have hshape := fun j => signLoop_shape E priv prevTxs _ _ _ _ j hx
        have hmap : x.vin.map TXInput.txid = tx.vin.map TXInput.txid := by
          apply List.ext_getElem?
          intro n
          rw [List.getElem?_map, List.getElem?_map]
          rcases hshape n with heq | ⟨va, vb, hva, hvb, ht, -, -⟩
          · rw [heq]
          · rw [hva, hvb]
            simp [ht]
        have htrimmap :
            x.vin.map (fun v =>
              ({ txid := v.txid, vout := v.vout, signature := [], pub_key := [] } : TXInput)) =
            tx.vin.map (fun v =>
              ({ txid := v.txid, vout := v.vout, signature := [], pub_key := [] } : TXInput)) := by
          apply List.ext_getElem?
          intro n
          rw [List.getElem?_map, List.getElem?_map]
          rcases hshape n with heq | ⟨va, vb, hva, hvb, ht, hv, -⟩
          · rw [heq]
          · rw [hva, hvb]
            simp [ht, hv]
        have htrim : x.trim_copy = tx.trim_copy := by
          rw [Transaction.trim_copy, Transaction.trim_copy, hid, hvout, htrimmap]
        have h0 : ∀ va vb, x.vin[0]? = some va → tx.vin[0]? = some vb → va.vout = vb.vout := by
          intro va vb h1 h2
          rcases hshape 0 with heq | ⟨wa, wb, hwa, hwb, -, hv, -⟩
          · rw [heq, h2] at h1
            injection h1 with h1
            rw [h1]
          · rw [hwa] at h1
            rw [hwb] at h2
            injection h1 with h1
            injection h2 with h2
            rw [← h1, ← h2]
            exact hv
        have hcb' : x.is_coinbase = false := by
          rw [is_coinbase_eq_of x tx hmap h0]
          revert hcb
          cases tx.is_coinbase <;> simp
        have hlenv : x.vin.length = tx.vin.length := by
          have h2 := congrArg List.length hmap
          simpa [List.length_map] using h2
        rw [Transaction.verify, if_neg (by rw [hcb']; simp)]
        rw [checkPrevTxs_congr prevTxs x.vin tx.vin hmap, hchk]
        dsimp only
        rw [hlenv, htrim]
        have hrange : tx.trim_copy.vin.length = tx.vin.length := by
          rw [Transaction.trim_copy]
          exact List.length_map _ _
        rw [hrange] at hx
        exact signLoop_then_verifyLoop E priv prevTxs (List.range tx.vin.length)
          tx.trim_copy tx x hx (List.nodup_range _)
          (fun i _ cv sv hc hs2 => by
            rw [Transaction.trim_copy] at hc
            dsimp only at hc
            rw [List.getElem?_map, hs2] at hc
            injection hc with hc
            rw [← hc]
            exact ⟨rfl, rfl⟩)
          (fun i _ sv hs2 => hkey i sv hs2)

/-- Witness for C3: a concrete one-input transfer under the toy scheme. -/
theorem sign_then_verify_round_trip_witness :
    Transaction.sign depsToy txC3 [1] prevMapW = some (.ok txC3signed) ∧
    Transaction.verify depsToy txC3signed prevMapW = some (.ok true) :=
  ⟨by decide,
   sign_then_verify_round_trip.2 depsToy txC3 txC3signed [1] prevMapW
     (by
       intro i v h
       cases i with
       | zero =>
         rw [show txC3.vin[0]? = some { txid := "T0", vout := 0, signature := [], pub_key := [1] } from rfl] at h
         injection h with h
         subst h
         exact ⟨prevTx0, by decide, by decide, by decide, by decide⟩
       | succ n =>
         rw [show txC3.vin[n + 1]? = none from rfl] at h
         exact Option.noConfusion h)
     (by
       intro i v h m
       cases i with
       | zero =>
         rw [show txC3.vin[0]? = some { txid := "T0", vout := 0, signature := [], pub_key := [1] } from rfl] at h
         injection h with h
         subst h
         show (depsToy.ed25519Signature m [1] == m ++ [1]) = true
         simp [depsToy]
       | succ n =>
         rw [show txC3.vin[n + 1]? = none from rfl] at h
         exact Option.noConfusion h)
     (by decide)⟩

/-- Claim C2 is false as stated (counterexample): on the chain holding
only `gBlockW`, the two blocks `b1CE`, `b2CE` form a mined sequence
(linkage, height, difficulty and transaction verification all hold), yet
after `reindex` followed by `update(b1CE); update(b2CE)` the store still
maps `"T1"` to the change output — `update` pruned position 1 out of a
list that had already lost its position-0 entry — while `reindex` on the
extended chain has no `"T1"` key at all. -/
theorem reindex_update_counterexample :
    minedSeq depsToy [gBlockW] [b1CE, b2CE] = true ∧
    (UTXOSet.updateSeq (UTXOSet.reindex [gBlockW]) [b1CE, b2CE]).map (fun u => u "T1") =
      some (some { outputs := [{ value := 6, pub_key_hash := [7] }] }) ∧
    UTXOSet.reindex ([b1CE, b2CE].reverse ++ [gBlockW]) "T1" = none :=
  ⟨by decide, by decide, by decide⟩

theorem find_utxo_flatten : ∀ (chain : List Block) (st : Utxos × SpentMap),
    chain.foldl (fun st b => b.transactions.foldl findUtxoTx st) st =
      (chainTxs chain).foldl findUtxoTx st
  | [], st => rfl
  | b :: c, st => by
    rw [chainTxs, List.flatMap_cons, List.foldl_append, List.foldl_cons]
    exact find_utxo_flatten c _

theorem pushFold_perkey (t : String) (skl : List Int) :
    ∀ (ps : List (Nat × TXOutput)) (u : Utxos) (k : String),
      (ps.foldl (fun u p => if skl.contains (p.1 : Int) then u else pushOutput u t p.2) u) k =
      if t = k then ps.foldl (pushStep skl) (u k) else u k
  | [], u, k => by
    by_cases h : t = k <;> simp [h]
  | p :: ps, u, k => by
    rw [List.foldl_cons, List.foldl_cons]
    by_cases hc : skl.contains (p.1 : Int)
    · rw [if_pos hc]
      rw [pushFold_perkey t skl ps u k]
      by_cases h : t = k
      · rw [if_pos h, if_pos h, pushStep, if_pos hc]
      · rw [if_neg h, if_neg h]
    · rw [if_neg hc]
      rw [pushFold_perkey t skl ps _ k]
      by_cases h : t = k
      · rw [if_pos h, if_pos h]
        have hpk : (pushOutput u t p.2) k = some ⟨(((u k).map TXOutputs.outputs).getD []) ++ [p.2]⟩ := by
          rw [pushOutput, if_pos h.symm, h]
        rw [hpk, pushStep, if_neg hc]
      · rw [if_neg h, if_neg h]
        rw [pushOutput, if_neg (fun e => h (e.symm))]

theorem spendFold_perkey (k : String) :
    ∀ (vins : List TXInput) (sp : SpentMap),
      (vins.foldl
        (fun sp i => fun x => if x = i.txid then some ((sp i.txid).getD [] ++ [i.vout]) else sp x)
        sp) k =
      vins.foldl (spendStep k) (sp k)
  | [], sp => rfl
  | i :: vins, sp => by
    rw [List.foldl_cons, List.foldl_cons]
    rw [spendFold_perkey k vins _]
    by_cases h : i.txid = k
    · rw [spendStep, if_pos h, if_pos h.symm, h]
    · rw [spendStep, if_neg h, if_neg (fun e => h (e.symm))]

theorem findUtxoTx_perkey (st : Utxos × SpentMap) (tx : Transaction) (k : String) :
    ((findUtxoTx st tx).1 k, (findUtxoTx st tx).2 k) = stepK k (st.1 k, st.2 k) tx := by
  rw [findUtxoTx, stepK]
  dsimp only
  congr 1
  · rw [findUtxoOutputs, pushFold_perkey]
    by_cases h : tx.id = k
    · rw [if_pos h, if_pos h, h]
    · rw [if_neg h, if_neg h]
  · rw [findUtxoSpends]
    by_cases hc : tx.is_coinbase = true
    · rw [if_pos hc, if_pos hc]
    · rw [if_neg hc, if_neg hc]
      exact spendFold_perkey k tx.vin st.2

theorem txScan_perkey (k : String) :
    ∀ (txs : List Transaction) (st : Utxos × SpentMap),
      ((txs.foldl findUtxoTx st).1 k, (txs.foldl findUtxoTx st).2 k) =
        txs.foldl (stepK k) (st.1 k, st.2 k)
  | [], st => rfl
  | tx :: rest, st => by
    rw [List.foldl_cons, List.foldl_cons]
    rw [txScan_perkey k rest _]
    rw [findUtxoTx_perkey st tx k]

theorem find_utxo_perkey (chain : List Block) (k : String) :
    Blockchain.find_utxo chain k = ((chainTxs chain).foldl (stepK k) (none, none)).1 := by
  have hf := find_utxo_flatten chain (fun _ => none, fun _ => none)
  have h := txScan_perkey k (chainTxs chain) (fun _ => none, fun _ => none)
  exact (congrArg (fun (st : Utxos × SpentMap) => st.1 k) hf).trans (congrArg Prod.fst h)

theorem spendFold_eq_filtered (k : String) :
    ∀ (vins : List TXInput) (sk : Option (List Int)),
      vins.foldl (spendStep k) sk =
        (vins.filter (fun i => i.txid == k)).foldl
          (fun sk i => some (sk.getD [] ++ [i.vout])) sk
  | [], sk => rfl
  | i :: vins, sk => by
    rw [List.foldl_cons, List.filter_cons]
    by_cases h : i.txid = k
    · rw [if_pos (by simp [h]), List.foldl_cons, spendStep, if_pos h]
      exact spendFold_eq_filtered k vins _
    · rw [if_neg (by simp [h]), spendStep, if_neg h]
      exact spendFold_eq_filtered k vins sk

theorem pushFold_eq_filtered (skl : List Int) :
    ∀ (ps : List (Nat × TXOutput)) (uk : Option TXOutputs),
      ps.foldl (pushStep skl) uk =
        (ps.filter (fun p => !(skl.contains (p.1 : Int)))).foldl
          (fun uk p => some ⟨((uk.map TXOutputs.outputs).getD []) ++ [p.2]⟩) uk
  | [], uk => rfl
  | p :: ps, uk => by
    rw [List.foldl_cons, List.filter_cons]
    by_cases h : skl.contains (p.1 : Int)
    · rw [if_neg (by rw [h]; simp), pushStep, if_pos h]
      exact pushFold_eq_filtered skl ps uk
    · rw [if_pos (by rw [Bool.eq_false_iff.mpr h]; simp), List.foldl_cons, pushStep, if_neg h]
      exact pushFold_eq_filtered skl ps _

theorem simplePushFold_closed :
    ∀ (l : List (Nat × TXOutput)) (uk : Option TXOutputs),
      l.foldl (fun uk p => some ⟨((uk.map TXOutputs.outputs).getD []) ++ [p.2]⟩) uk =
        if l = [] then uk
        else some ⟨((uk.map TXOutputs.outputs).getD []) ++ l.map Prod.snd⟩
  | [], uk => rfl
  | p :: l, uk => by
    rw [List.foldl_cons, if_neg (by simp)]
    rw [simplePushFold_closed l _]
    by_cases h : l = []
    · rw [if_pos h, h]
      simp
    · rw [if_neg h]
      simp [List.append_assoc]

theorem refListTxs_cons (tx : Transaction) (rest : List Transaction) :
    refListTxs (tx :: rest) =
      (if tx.is_coinbase = true then [] else tx.vin) ++ refListTxs rest := by
  rw [refListTxs, List.filter_cons]
  by_cases h : tx.is_coinbase = true
  · rw [if_neg (by rw [h]; simp), if_pos h, refListTxs, List.nil_append]
  · rw [if_pos (by rw [Bool.eq_false_iff.mpr h]; simp), if_neg h, List.flatMap_cons, refListTxs]

theorem fold_snd_spendfold (k : String) :
    ∀ (txs : List Transaction) (st : Option TXOutputs × Option (List Int)),
      (txs.foldl (stepK k) st).2 = (refListTxs txs).foldl (spendStep k) st.2
  | [], st => rfl
  | tx :: rest, st => by
    rw [List.foldl_cons, refListTxs_cons, List.foldl_append]
    rw [fold_snd_spendfold k rest _]
    congr 1
    rw [stepK]
    dsimp only
    by_cases h : tx.is_coinbase = true
    · rw [if_pos h, if_pos h]
      rfl
    · rw [if_neg h, if_neg h]

theorem fold_fst_no_id (k : String) :
    ∀ (txs : List Transaction) (st : Option TXOutputs × Option (List Int)),
      (∀ tx ∈ txs, tx.id ≠ k) → (txs.foldl (stepK k) st).1 = st.1
  | [], st, _ => rfl
  | tx :: rest, st, h => by
    rw [List.foldl_cons]
    rw [fold_fst_no_id k rest _ (fun t ht => h t (List.mem_cons_of_mem tx ht))]
    rw [stepK]
    dsimp only
    rw [if_neg (h tx (List.mem_cons_self tx rest))]

theorem fold_fst_unique (k : String) :
    ∀ (txs : List Transaction) (st : Option TXOutputs × Option (List Int)) (U : Transaction),
      txs.filter (fun tx => tx.id == k) = [U] →
      (∀ tx ∈ txs, ¬ tx.is_coinbase = true → ∀ i ∈ tx.vin, i.txid ≠ k) →
      (txs.foldl (stepK k) st).1 = U.vout.enum.foldl (pushStep ((st.2).getD [])) st.1
  | [], st, U, hf, _ => by simp at hf
  | tx :: rest, st, U, hf, hsp => by
    rw [List.filter_cons] at hf
    rw [List.foldl_cons]
    by_cases h : tx.id = k
    · rw [if_pos (by simp [h])] at hf
      injection hf with hU hrest
      subst hU
      have hnorest : ∀ t ∈ rest, t.id ≠ k := by
        intro t ht he
        have : t ∈ rest.filter (fun tx => tx.id == k) := by
          rw [List.mem_filter]
          exact ⟨ht, by simp [he]⟩
        rw [hrest] at this
        simp at this
      rw [fold_fst_no_id k rest _ hnorest]
      rw [stepK]
      dsimp only
      rw [if_pos h]
    · rw [if_neg (by simp [h])] at hf
      have hrec := fold_fst_unique k rest (stepK k st tx) U hf
        (fun t ht => hsp t (List.mem_cons_of_mem tx ht))
      rw [hrec]
      have h1 : (stepK k st tx).1 = st.1 := by
        rw [stepK]; dsimp only; rw [if_neg h]
      have h2 : (stepK k st tx).2 = st.2 := by
        rw [stepK]
        dsimp only
        by_cases hc : tx.is_coinbase = true
        · rw [if_pos hc]
        · rw [if_neg hc]
          rw [spendFold_eq_filtered]
          have : tx.vin.filter (fun i => i.txid == k) = [] := by
            rw [List.filter_eq_nil_iff]
            intro i hi
            simp [hsp tx (List.mem_cons_self tx rest) hc i hi]
          rw [this]
          rfl
      rw [h1, h2]
  
theorem find?_nodup_filter {α : Type} (f : α → String) (k : String) :
    ∀ (l : List α) (a : α), (l.map f).Nodup → l.find? (fun x => f x == k) = some a →
      l.filter (fun x => f x == k) = [a]
  | [], a, _, hf => by simp at hf
  | x :: l, a, hnd, hf => by
    rw [List.find?_cons] at hf
    rw [List.filter_cons]
    by_cases h : f x = k
    · have hb : (f x == k) = true := by simp [h]
      rw [hb] at hf
      injection hf with hf
      subst hf
      rw [hb, if_pos rfl]
      have : l.filter (fun x => f x == k) = [] := by
        rw [List.filter_eq_nil_iff]
        intro b hb hbk
        have hkin : k ∈ l.map f := by
          rw [List.mem_map]
          exact ⟨b, hb, by simpa using hbk⟩
        rw [List.map_cons, List.nodup_cons] at hnd
        exact hnd.1 (h ▸ hkin)
      rw [this]
    · have hb : (f x == k) = false := by simp [h]
      rw [hb] at hf
      rw [hb, if_neg (by simp)]
      rw [List.map_cons, List.nodup_cons] at hnd
      exact find?_nodup_filter f k l a hnd.2 hf

theorem vinFold_char :
    ∀ (vins : List TXInput) (u : Utxos),
      (vins.map TXInput.txid).Nodup →
      (∀ v ∈ vins, (u v.txid).isSome) →
      vins.foldlM updateVin u = some (vinFoldFun u vins)
  | [], u, _, _ => by
    rfl
  | v :: vins, u, hnd, hsome => by
    rw [List.foldlM_cons]
    have hv := hsome v (List.mem_cons_self v vins)
    rcases houts : u v.txid with _ | outs
    · rw [houts] at hv
      simp at hv
    · rw [List.map_cons, List.nodup_cons] at hnd
      have hstep : updateVin u v =
          some (fun k => if k = v.txid then pruneOpt (u v.txid) v.vout else u k) := by
        rw [updateVin, houts]
        dsimp only
        by_cases he : (prunedAt outs.outputs v.vout).isEmpty
        · rw [if_pos he]
          congr 1
          funext k
          by_cases hk : k = v.txid
          · rw [if_pos hk, if_pos hk]
            simp [pruneOpt, he]
          · rw [if_neg hk, if_neg hk]
        · rw [if_neg he]
          congr 1
          funext k
          by_cases hk : k = v.txid
          · rw [if_pos hk, if_pos hk]
            simp [pruneOpt, he]
          · rw [if_neg hk, if_neg hk]
      rw [hstep, Option.bind_eq_bind, Option.some_bind]
      have hsome' : ∀ w ∈ vins,
          (((fun k => if k = v.txid then pruneOpt (u v.txid) v.vout else u k) : Utxos) w.txid).isSome := by
        intro w hw
        have hne : w.txid ≠ v.txid := by
          intro he
          exact hnd.1 (he ▸ List.mem_map_of_mem TXInput.txid hw)
        dsimp only
        rw [if_neg hne]
        exact hsome w (List.mem_cons_of_mem v hw)
      rw [vinFold_char vins _ hnd.2 hsome']
      congr 1
      funext k
      rw [vinFoldFun, vinFoldFun, List.find?_cons]
      by_cases hk : v.txid = k
      · rw [show (v.txid == k) = true from by simp [hk]]
        have hnone : vins.find? (fun w => w.txid == k) = none := by
          rw [List.find?_eq_none]
          intro w hw hwk
          exact hnd.1 (hk ▸ (by simpa using hwk : w.txid = k) ▸ List.mem_map_of_mem TXInput.txid hw)
        rw [hnone]
        dsimp only
        rw [if_pos hk.symm, hk]
      · rw [show (v.txid == k) = false from by simp [hk]]
        rcases hfind : vins.find? (fun w => w.txid == k) with _ | w
      

        · dsimp only
          rw [if_neg (fun e => hk e.symm)]
        · dsimp only
          rw [if_neg (fun e => hk e.symm)]

theorem updateTx_coinbase (u : Utxos) (tx : Transaction) (hc : tx.is_coinbase = true) :
    updateTx u tx = some (fun k => if k = tx.id then some ⟨tx.vout⟩ else u k) := by
  rw [updateTx, if_pos hc, Option.bind_eq_bind, Option.some_bind]

theorem updateTx_noncb (u : Utxos) (tx : Transaction) (hc : ¬ tx.is_coinbase = true)
    (hnd : (tx.vin.map TXInput.txid).Nodup)
    (hsome : ∀ v ∈ tx.vin, (u v.txid).isSome) :
    updateTx u tx =
      some (fun k => if k = tx.id then some ⟨tx.vout⟩ else vinFoldFun u tx.vin k) := by
  rw [updateTx, if_neg hc, Option.bind_eq_bind, vinFold_char tx.vin u hnd hsome,
    Option.some_bind]


theorem updFunTxs_cons_cb (u : Utxos) (tx : Transaction) (rest : List Transaction)
    (hc : tx.is_coinbase = true)
    (hid : ¬ tx.id ∈ rest.map Transaction.id)
    (hner : ∀ v ∈ refListTxs rest, v.txid ≠ tx.id) :
    updFunTxs (fun k => if k = tx.id then some ⟨tx.vout⟩ else u k) rest =
      updFunTxs u (tx :: rest) := by
  funext k
  have hrefs : refListTxs (tx :: rest) = refListTxs rest := by
    rw [refListTxs_cons, if_pos hc, List.nil_append]
  by_cases hk : tx.id = k
  · have hfid : rest.find? (fun t => t.id == k) = none := by
      rw [List.find?_eq_none]
      intro t ht htk
      exact hid ((show t.id = tx.id from by rw [hk]; simpa using htk) ▸
        List.mem_map_of_mem Transaction.id ht)
    have hfref : (refListTxs rest).find? (fun v => v.txid == k) = none := by
      rw [List.find?_eq_none]
      intro v hv hvk
      exact hner v hv (by rw [hk]; simpa using hvk)
    simp only [updFunTxs, List.find?_cons, show (tx.id == k) = true from by simp [hk], hfid,
      hfref, if_pos hk.symm]
  · rcases hfid : rest.find? (fun t => t.id == k) with _ | t
    · rcases hfref : (refListTxs rest).find? (fun v => v.txid == k) with _ | v
      · simp only [updFunTxs, List.find?_cons, show (tx.id == k) = false from by simp [hk],
          hfid, hrefs, hfref, if_neg (show ¬ k = tx.id from fun e => hk e.symm)]
      · simp only [updFunTxs, List.find?_cons, show (tx.id == k) = false from by simp [hk],
          hfid, hrefs, hfref, if_neg (show ¬ k = tx.id from fun e => hk e.symm)]
    · simp only [updFunTxs, List.find?_cons, show (tx.id == k) = false from by simp [hk],
        hfid, hrefs]

theorem updFunTxs_cons_noncb (u : Utxos) (tx : Transaction) (rest : List Transaction)
    (hc : ¬ tx.is_coinbase = true)
    (hid : ¬ tx.id ∈ rest.map Transaction.id)
    (hner : ∀ v ∈ refListTxs rest, v.txid ≠ tx.id)
    (hdisj : ∀ a ∈ tx.vin.map TXInput.txid, ¬ a ∈ (refListTxs rest).map TXInput.txid) :
    updFunTxs (fun k => if k = tx.id then some ⟨tx.vout⟩ else vinFoldFun u tx.vin k) rest =
      updFunTxs u (tx :: rest) := by
  funext k
  have hrefs : refListTxs (tx :: rest) = tx.vin ++ refListTxs rest := by
    rw [refListTxs_cons, if_neg hc]
  by_cases hk : tx.id = k
  · have hfid : rest.find? (fun t => t.id == k) = none := by
      rw [List.find?_eq_none]
      intro t ht htk
      exact hid ((show t.id = tx.id from by rw [hk]; simpa using htk) ▸
        List.mem_map_of_mem Transaction.id ht)
    have hfref : (refListTxs rest).find? (fun v => v.txid == k) = none := by
      rw [List.find?_eq_none]
      intro v hv hvk
      exact hner v hv (by rw [hk]; simpa using hvk)
    simp only [updFunTxs, List.find?_cons, show (tx.id == k) = true from by simp [hk], hfid,
      hfref, if_pos hk.symm]
  · rcases hfid : rest.find? (fun t => t.id == k) with _ | t
    · rcases hfvin : tx.vin.find? (fun v => v.txid == k) with _ | v
      · rcases hfref : (refListTxs rest).find? (fun v => v.txid == k) with _ | w
        · simp only [updFunTxs, vinFoldFun, List.find?_cons,
            show (tx.id == k) = false from by simp [hk], hfid, hrefs, List.find?_append,
            hfvin, hfref, Option.none_or,
            if_neg (show ¬ k = tx.id from fun e => hk e.symm)]
        · simp only [updFunTxs, vinFoldFun, List.find?_cons,
            show (tx.id == k) = false from by simp [hk], hfid, hrefs, List.find?_append,
            hfvin, hfref, Option.none_or,
            if_neg (show ¬ k = tx.id from fun e => hk e.symm)]
      · have hvk : v.txid = k := by
          have := List.find?_some hfvin
          simpa using this
        have hfref : (refListTxs rest).find? (fun w => w.txid == k) = none := by
          rw [List.find?_eq_none]
          intro w hw hwk
          exact hdisj k
            (hvk ▸ List.mem_map_of_mem TXInput.txid (List.mem_of_find?_eq_some hfvin))
            ((show w.txid = k from by simpa using hwk) ▸
              List.mem_map_of_mem TXInput.txid hw)
        simp only [updFunTxs, vinFoldFun, List.find?_cons,
          show (tx.id == k) = false from by simp [hk], hfid, hrefs, List.find?_append,
          hfvin, hfref, if_neg (show ¬ k = tx.id from fun e => hk e.symm)]
        rfl
    · simp only [updFunTxs, List.find?_cons, show (tx.id == k) = false from by simp [hk],
        hfid, hrefs]

theorem update_char :
    ∀ (txs : List Transaction) (u : Utxos),
      (txs.map Transaction.id).Nodup →
      ((refListTxs txs).map TXInput.txid).Nodup →
      (∀ v ∈ refListTxs txs, ¬ v.txid ∈ txs.map Transaction.id) →
      (∀ v ∈ refListTxs txs, (u v.txid).isSome) →
      txs.foldlM updateTx u = some (updFunTxs u txs)
  | [], u, _, _, _, _ => rfl
  | tx :: rest, u, h1, h2, h3, h4 => by
    rw [List.foldlM_cons]
    rw [List.map_cons, List.nodup_cons] at h1
    have hrefs : refListTxs (tx :: rest) =
        (if tx.is_coinbase = true then [] else tx.vin) ++ refListTxs rest :=
      refListTxs_cons tx rest
    have hmemrest : ∀ v ∈ refListTxs rest, v ∈ refListTxs (tx :: rest) := by
      intro v hv
      rw [hrefs]
      exact List.mem_append_right _ hv
    have hmemvin : ¬ tx.is_coinbase = true → ∀ v ∈ tx.vin, v ∈ refListTxs (tx :: rest) := by
      intro hc v hv
      rw [hrefs, if_neg hc]
      exact List.mem_append_left _ hv
    have hner : ∀ v ∈ refListTxs rest, v.txid ≠ tx.id := by
      intro v hv he
      exact h3 v (hmemrest v hv) (by rw [List.map_cons, he]; exact List.mem_cons_self _ _)
    have h3' : ∀ v ∈ refListTxs rest, ¬ v.txid ∈ rest.map Transaction.id := by
      intro v hv hm
      exact h3 v (hmemrest v hv) (by rw [List.map_cons]; exact List.mem_cons_of_mem _ hm)
    by_cases hc : tx.is_coinbase = true
    · rw [updateTx_coinbase u tx hc, Option.bind_eq_bind, Option.some_bind]
      have h2' : ((refListTxs rest).map TXInput.txid).Nodup := by
        have h := h2
        rw [hrefs, if_pos hc, List.nil_append] at h
        exact h
      have h4' : ∀ v ∈ refListTxs rest,
          (((fun k => if k = tx.id then some ⟨tx.vout⟩ else u k) : Utxos) v.txid).isSome := by
        intro v hv
        dsimp only
        rw [if_neg (hner v hv)]
        exact h4 v (hmemrest v hv)
      rw [update_char rest _ h1.2 h2' h3' h4', updFunTxs_cons_cb u tx rest hc h1.1 hner]
    · have hvinsub : (tx.vin.map TXInput.txid).Nodup := by
        have h := h2
        rw [hrefs, if_neg hc, List.map_append] at h
        exact h.of_append_left
      have hdisj : ∀ a ∈ tx.vin.map TXInput.txid, ¬ a ∈ (refListTxs rest).map TXInput.txid := by
        have h := h2
        rw [hrefs, if_neg hc, List.map_append] at h
        exact fun a ha hb => (List.disjoint_of_nodup_append h) ha hb
      have h4vin : ∀ v ∈ tx.vin, (u v.txid).isSome := by
        intro v hv
        exact h4 v (hmemvin hc v hv)
      rw [updateTx_noncb u tx hc hvinsub h4vin, Option.bind_eq_bind, Option.some_bind]
      have h2' : ((refListTxs rest).map TXInput.txid).Nodup := by
        have h := h2
        rw [hrefs, if_neg hc, List.map_append] at h
        exact h.of_append_right
      have h4' : ∀ v ∈ refListTxs rest,
          (((fun k => if k = tx.id then some ⟨tx.vout⟩ else vinFoldFun u tx.vin k) :
            Utxos) v.txid).isSome := by
        intro v hv
        dsimp only
        rw [if_neg (hner v hv)]
        have hfin : tx.vin.find? (fun w => w.txid == v.txid) = none := by
          rw [List.find?_eq_none]
          intro w hw hwk
          exact hdisj v.txid
            ((show w.txid = v.txid from by simpa using hwk) ▸
              List.mem_map_of_mem TXInput.txid hw)
            (List.mem_map_of_mem TXInput.txid hv)
        rw [vinFoldFun, hfin]
        exact h4 v (hmemrest v hv)
      rw [update_char rest _ h1.2 h2' h3' h4',
        updFunTxs_cons_noncb u tx rest hc h1.1 hner hdisj]

theorem chainTxs_cons (b : Block) (chain : List Block) :
    chainTxs (b :: chain) = b.transactions ++ chainTxs chain := by
  rw [chainTxs, List.flatMap_cons, chainTxs]

theorem pushFold_full (outs : List TXOutput) (h : outs ≠ []) :
    outs.enum.foldl (pushStep []) none = some ⟨outs⟩ := by
  rw [pushFold_eq_filtered]
  have hfil : outs.enum.filter (fun p => !(([] : List Int).contains (p.1 : Int))) =
      outs.enum := by
    apply List.filter_eq_self.mpr
    intro p _
    rfl
  rw [hfil, simplePushFold_closed]
  rw [if_neg (by simpa using h)]
  simp [List.enum_map_snd]

theorem pushFold_pruned (outs : List TXOutput) (i0 : Int) :
    outs.enum.foldl (pushStep [i0]) none = pruneOpt (some ⟨outs⟩) i0 := by
  rw [pushFold_eq_filtered]
  have hpred : (fun (p : Nat × TXOutput) => !(([i0] : List Int).contains (p.1 : Int))) =
      (fun p => decide ((p.1 : Int) ≠ i0)) := by
    funext p
    by_cases h : (p.1 : Int) = i0 <;> simp [h]
  rw [hpred, simplePushFold_closed]
  rw [show pruneOpt (some ⟨outs⟩) i0 =
    if (prunedAt outs i0).isEmpty then none else some ⟨prunedAt outs i0⟩ from rfl]
  by_cases hL : outs.enum.filter (fun p => decide ((p.1 : Int) ≠ i0)) = []
  · rw [if_pos hL]
    have hpr : prunedAt outs i0 = [] := by
      rw [prunedAt, hL]
      rfl
    rw [hpr]
    rfl
  · rw [if_neg hL]
    have hpr : prunedAt outs i0 =
        (outs.enum.filter (fun p => decide ((p.1 : Int) ≠ i0))).map Prod.snd := rfl
    rw [hpr, if_neg (by simpa using hL)]
    simp

theorem reindex_update_step (chain : List Block) (b : Block) (hg : GoodBlock chain b) :
    UTXOSet.update (Blockchain.find_utxo chain) b =
      some (Blockchain.find_utxo (b :: chain)) := by
  obtain ⟨g1, g2, g3, g4, g5, g6, g7, g8⟩ := hg
  have hU : ∀ v ∈ refList b, ∃ U : Transaction,
      (chainTxs chain).filter (fun tx => tx.id == v.txid) = [U] ∧
      Blockchain.find_utxo chain v.txid = some ⟨U.vout⟩ := by
    intro v hv
    obtain ⟨U, hUf⟩ := List.length_eq_one.mp (g6 v hv)
    refine ⟨U, hUf, ?_⟩
    have hUin : U ∈ (chainTxs chain).filter (fun tx => tx.id == v.txid) := by
      rw [hUf]
      exact List.mem_cons_self _ _
    have hUmem : U ∈ chainTxs chain := (List.mem_filter.mp hUin).1
    have hUid : U.id = v.txid := by
      have h := (List.mem_filter.mp hUin).2
      simpa using h
    have hUout : U.vout ≠ [] := g7 v hv U hUmem hUid
    rw [find_utxo_perkey]
    rw [fold_fst_unique v.txid (chainTxs chain) (none, none) U hUf
      (fun tx ht hc i hi => g8 v hv tx ht hc i hi)]
    exact pushFold_full U.vout hUout
  have hsome : ∀ v ∈ refListTxs b.transactions,
      ((Blockchain.find_utxo chain) v.txid).isSome := by
    intro v hv
    obtain ⟨U, _, hUe⟩ := hU v hv
    rw [hUe]
    rfl
  rw [UTXOSet.update, update_char b.transactions _ g2 g5 g4 hsome]
  congr 1
  funext k
  rw [find_utxo_perkey (b :: chain) k, chainTxs_cons, List.foldl_append]
  simp only [updFunTxs]
  rcases hfid : b.transactions.find? (fun tx => tx.id == k) with _ | Ub
  · rcases hfref : (refListTxs b.transactions).find? (fun v => v.txid == k) with _ | v
    · -- k neither a block transaction id nor referenced: the block scan is inert at k
      simp only [hfid, hfref]
      have hnoid : ∀ tx ∈ b.transactions, tx.id ≠ k := by
        intro t ht he
        exact (List.find?_eq_none.mp hfid t ht) (by simp [he])
      have h1 : (b.transactions.foldl (stepK k)
          ((none : Option TXOutputs), (none : Option (List Int)))).1 = none :=
        fold_fst_no_id k b.transactions _ hnoid
      have h2 : (b.transactions.foldl (stepK k)
          ((none : Option TXOutputs), (none : Option (List Int)))).2 = none := by
        rw [fold_snd_spendfold, spendFold_eq_filtered]
        have hfil : (refListTxs b.transactions).filter (fun i => i.txid == k) = [] := by
          rw [List.filter_eq_nil_iff]
          exact fun i hi => List.find?_eq_none.mp hfref i hi
        rw [hfil]
        rfl
      have hb2 : b.transactions.foldl (stepK k)
          ((none : Option TXOutputs), (none : Option (List Int))) = (none, none) :=
        Prod.ext h1 h2
      rw [hb2, ← find_utxo_perkey chain k]
    · -- k is referenced by exactly one input of the block
      simp only [hfid, hfref]
      have hv : v ∈ refListTxs b.transactions := List.mem_of_find?_eq_some hfref
      have hvk : v.txid = k := by
        have h := List.find?_some hfref
        simpa using h
      obtain ⟨U, hUf, hUe⟩ := hU v hv
      rw [hvk] at hUf hUe
      rw [hUe]
      have hnoid : ∀ tx ∈ b.transactions, tx.id ≠ k := by
        intro t ht he
        exact (List.find?_eq_none.mp hfid t ht) (by simp [he])
      have h1 : (b.transactions.foldl (stepK k)
          ((none : Option TXOutputs), (none : Option (List Int)))).1 = none :=
        fold_fst_no_id k b.transactions _ hnoid
      have hfilref : (refListTxs b.transactions).filter (fun i => i.txid == k) = [v] :=
        find?_nodup_filter TXInput.txid k (refListTxs b.transactions) v g5 hfref
      have h2 : (b.transactions.foldl (stepK k)
          ((none : Option TXOutputs), (none : Option (List Int)))).2 = some [v.vout] := by
        rw [fold_snd_spendfold, spendFold_eq_filtered, hfilref]
        rfl
      have hnospc : ∀ tx ∈ chainTxs chain, ¬ tx.is_coinbase = true →
          ∀ i ∈ tx.vin, i.txid ≠ k := by
        intro t ht hc i hi
        rw [← hvk]
        exact g8 v hv t ht hc i hi
      rw [fold_fst_unique k (chainTxs chain) _ U hUf hnospc, h1, h2]
      exact (pushFold_pruned U.vout v.vout).symm
  · -- k is the id of a block transaction: the entry is its fresh output list
    simp only [hfid]
    have hUbmem : Ub ∈ b.transactions := List.mem_of_find?_eq_some hfid
    have hUbid : Ub.id = k := by
      have h := List.find?_some hfid
      simpa using h
    have hfil : b.transactions.filter (fun tx => tx.id == k) = [Ub] :=
      find?_nodup_filter Transaction.id k b.transactions Ub g2 hfid
    have hnospb : ∀ tx ∈ b.transactions, ¬ tx.is_coinbase = true →
        ∀ i ∈ tx.vin, i.txid ≠ k := by
      intro t ht hc i hi hik
      have hiref : i ∈ refListTxs b.transactions := by
        rw [refListTxs, List.mem_flatMap]
        exact ⟨t, List.mem_filter.mpr ⟨ht, by simp [hc]⟩, hi⟩
      exact g4 i hiref (by rw [hik, ← hUbid]; exact List.mem_map_of_mem Transaction.id hUbmem)
    have h1 : (b.transactions.foldl (stepK k)
        ((none : Option TXOutputs), (none : Option (List Int)))).1 = some ⟨Ub.vout⟩ := by
      rw [fold_fst_unique k b.transactions (none, none) Ub hfil hnospb]
      exact pushFold_full Ub.vout (g1 Ub hUbmem)
    have hnochain : ∀ tx ∈ chainTxs chain, tx.id ≠ k := by
      intro t ht he
      exact g3 Ub hUbmem (by rw [hUbid, ← he]; exact List.mem_map_of_mem Transaction.id ht)
    rw [fold_fst_no_id k (chainTxs chain) _ hnochain, h1]

theorem reindex_update_seq :
    ∀ (bs : List Block) (chain : List Block), goodSeq chain bs →
      UTXOSet.updateSeq (UTXOSet.reindex chain) bs =
        some (UTXOSet.reindex (bs.reverse ++ chain))
  | [], chain, _ => rfl
  | b :: bs, chain, hg => by
    obtain ⟨hgb, hgs⟩ := hg
    have h := reindex_update_seq bs (b :: chain) hgs
    simp only [UTXOSet.updateSeq, UTXOSet.reindex] at h ⊢
    rw [List.foldlM_cons, reindex_update_step chain b hgb, Option.bind_eq_bind,
      Option.some_bind, h, List.reverse_cons, List.append_assoc]
    rfl

/-- Claim C2 (corrected): the original claim — `reindex` followed by
`update(b1); ...; update(bn)` in mining order leaves the same `utxos`
contents as a fresh `reindex` of the grown chain — fails even for honestly
mined blocks (see `reindex_update_counterexample`): `update` prunes a
stored entry by the *position* of the surviving outputs while `reindex`
and `find_utxo` skip spent outputs by their *original* index.  The
equivalence does hold under the `goodSeq` restrictions: every block adds
fresh, pairwise-distinct, non-empty-output transaction ids, never spends
inside its own block, and each referenced transaction is defined exactly
once in the chain, was never spent before, has a non-empty output list,
and is referenced by exactly one input of the block being applied. -/
theorem reindex_update_amended (chain : List Block) (bs : List Block) (hg : goodSeq chain bs) :
    UTXOSet.updateSeq (UTXOSet.reindex chain) bs =
      some (UTXOSet.reindex (bs.reverse ++ chain)) :=
  reindex_update_seq bs chain hg

theorem reindex_update_amended_witness :
    goodSeq [gBlockW] [bGoodW] ∧
      UTXOSet.updateSeq (UTXOSet.reindex [gBlockW]) [bGoodW] =
        some (UTXOSet.reindex ([bGoodW].reverse ++ [gBlockW])) :=
  ⟨by decide, reindex_update_amended [gBlockW] [bGoodW] (by decide)⟩
